import Mathlib

/-! # bazel-query-parser: the digest engine

A shallow embedding of `cmd/bazel-query-parser/main.go`.

* Go strings are `String` (labels and paths are valid UTF-8, and the program only splits them
  at the ASCII characters `:` and `/`), byte slices are `List UInt8`.
* The two package-level maps (`hashedTargets`, `cachedSourceFileLocations`) are fields of an
  explicit `State` that every function threads through.
* `hashedTargets` has type `map[*string]*[]byte`: its keys are addresses of `string` variables.
  Addresses are natural numbers; `State.heap` lists the string variables allocated so far, the
  address of a variable being its index in that list.
* The library functions the program calls (`sha256`, `proto.CompactText`, `filepath.Dir`,
  `filepath.Join`, `os.Stat`, `ioutil.ReadFile`) are the fields of `Env`.
* `CalculateHash` and `CalculateHashForRule` call each other and need not terminate, so
  `CalculateHash` takes a recursion budget.
-/

namespace BazelQueryParser

abbrev Bytes := List UInt8

/-! ## Data model -/

/-- Modelled from the spec: the generated protobuf type `blaze_query.Attribute` is not among the
sources. The program reads its name and hands the whole message to the serializer; `value` stands
for everything in the message besides the name. -/
structure Attribute where
  name : String
  value : Bytes
deriving DecidableEq, Repr

/-- Modelled from the spec: the generated protobuf type `blaze_query.Rule` is not among the
sources; these are the fields the program reads. -/
structure Rule where
  name : String
  ruleClass : String
  attributes : List Attribute
  ruleInput : List String
deriving DecidableEq, Repr

/-- Modelled from the spec: the generated protobuf type `blaze_query.SourceFile`. -/
structure SourceFile where
  name : String
  location : String
deriving DecidableEq, Repr

/-- Modelled from the spec: the generated protobuf type `blaze_query.GeneratedFile`. -/
structure GeneratedFile where
  name : String
  generatingRule : String
deriving DecidableEq, Repr

/-- Modelled from the spec: the generated protobuf type `blaze_query.PackageGroup`. -/
structure PackageGroup where
  name : String
deriving DecidableEq, Repr

/-- Modelled from the spec: the generated protobuf type `blaze_query.Target`, a tagged variant.
`other kind` is a target whose discriminator is none of the four the program names. -/
inductive Target where
  | rule (r : Rule)
  | sourceFile (f : SourceFile)
  | generatedFile (g : GeneratedFile)
  | packageGroup (p : PackageGroup)
  | other (kind : Nat)
deriving DecidableEq, Repr

/-- The Go type `map[string]*build.Target`; `none` is the nil pointer a missing key reads as. -/
abbrev TargetMap := String → Option Target

/-! ## Environment, state, results -/

/-- What `os.Stat` reports for a path. -/
inductive StatResult where
  | ok
  | notExist
  | error
deriving DecidableEq, Repr

/-- The pair `ioutil.ReadFile` returns: the bytes read and whether the error is non-nil. -/
structure ReadResult where
  data : Bytes
  failed : Bool
deriving DecidableEq, Repr

/-- The library functions and the filesystem the program runs against. -/
structure Env where
  /-- Value of `h.Sum(nil)` for a fresh `sha256.New()` that was fed these bytes by `Write`. -/
  hash : Bytes → Bytes
  /-- Bytes `proto.CompactText` writes for an attribute; `none` when it returns an error. -/
  compactText : Attribute → Option Bytes
  /-- The function `filepath.Dir`. -/
  dir : String → String
  /-- The function `filepath.Join` on two elements. -/
  join : String → String → String
  /-- The function `os.Stat`, its error only. -/
  stat : String → StatResult
  /-- The function `ioutil.ReadFile`. -/
  readFile : String → ReadResult

/-- Observable steps, recorded in order. -/
inductive Event where
  | calcRule (name : String)
  | calcSource (name : String)
  | stat (path : String)
  | readFile (path : String)
  | logNotFound (label : String)
  | logSkipped (label : String)
  | logMissing (path : String)
  | logStatFailed (path : String)
  | logReadFailed (path : String)
deriving DecidableEq, Repr

/-- The process state: the heap of `label` variables, the two package-level maps and the record
of observable steps. A nil map and an empty map read alike, both are `[]`. -/
structure State where
  heap : List String
  hashedTargets : List (Nat × Bytes)
  cachedSourceFileLocations : List (String × String)
  trace : List Event
deriving DecidableEq, Repr

/-- The state at process start. -/
def State.init : State := ⟨[], [], [], []⟩

/-- Append an event to the record. -/
def State.emit (s : State) (e : Event) : State := { s with trace := s.trace ++ [e] }

/-- How a call ends: it returns, `log.Fatalf` exits, a nil dereference panics, or the recursion
budget of the model is used up. -/
inductive Res (α : Type) where
  | ok (a : α)
  | fatal
  | panic
  | outOfFuel
deriving DecidableEq, Repr

/-- Apply a function to the returned value. -/
def Res.map {α β : Type} (f : α → β) : Res α → Res β
  | .ok a => .ok (f a)
  | .fatal => .fatal
  | .panic => .panic
  | .outOfFuel => .outOfFuel

/-- The value a call returned, forgetting the state. -/
def Res.value {α : Type} (r : Res (α × State)) : Res α := r.map Prod.fst

/-! ## String helpers (`strings.Split`, `strings.Replace`) -/

/-- The function `strings.Split` for a one-character separator, on character lists; `cur` holds
the current piece reversed. -/
def splitChars (sep : Char) : List Char → List Char → List (List Char)
  | [], cur => [cur.reverse]
  | c :: cs, cur =>
    if c = sep then cur.reverse :: splitChars sep cs [] else splitChars sep cs (c :: cur)

/-- The function `strings.Split(s, sep)` for a one-character separator. -/
def stringsSplit (s : String) (sep : Char) : List String :=
  (splitChars sep s.data []).map String.mk

/-- Replace the first occurrence of `old` by `new`, on character lists. -/
def replaceFirstChars (old new : List Char) : List Char → List Char
  | [] => if old = [] then new else []
  | c :: cs =>
    if old.isPrefixOf (c :: cs) then new ++ (c :: cs).drop old.length
    else c :: replaceFirstChars old new cs

/-- The call `strings.Replace(s, old, new, 1)`. -/
def stringsReplace1 (s old new : String) : String :=
  String.mk (replaceFirstChars old.data new.data s.data)

/-! ## The program -/

/-- The map literal `ignoredAttributes` of `GetRuleAttributes`. -/
def ignoredAttributes : List (String × Bool) :=
  [("build_file", true), ("generator_location", true), ("path", true)]

/-- The function `GetRuleAttributes`: a loop over `rule.Attribute` that appends what it keeps. -/
def GetRuleAttributes (rule : Rule) : List Attribute :=
  rule.attributes.foldl
    (fun result a =>
      if (ignoredAttributes.lookup a.name).getD false then result
      else result ++ [a])
    []

/-- The local `combinedPath` of `GetSourceFileLocation`. -/
def combinedPath (env : Env) (source : SourceFile) : String :=
  let pathToTarget := env.dir ((stringsSplit source.location ':').headD "")
  let pathFromTargetChunks := stringsSplit (stringsReplace1 source.name "//" "") ':'
  let pathFromTarget := pathFromTargetChunks.getLastD ""
  env.join pathToTarget pathFromTarget

/-- The function `GetSourceFileLocation`. -/
def GetSourceFileLocation (env : Env) (source : SourceFile) (s : State) : String × State :=
  let cp := combinedPath env source
  match s.cachedSourceFileLocations.lookup cp with
  | some value => (value, s)
  | none =>
    let s1 := s.emit (.stat cp)
    match env.stat cp with
    | .notExist =>
      ("", { s1.emit (.logMissing cp) with
              cachedSourceFileLocations := (cp, "") :: s1.cachedSourceFileLocations })
    | .error =>
      ("", { s1.emit (.logStatFailed cp) with
              cachedSourceFileLocations := (cp, "") :: s1.cachedSourceFileLocations })
    | .ok => (cp, { s1 with cachedSourceFileLocations := (cp, cp) :: s1.cachedSourceFileLocations })

/-- The function `CalculateHashForSourceFile`. -/
def CalculateHashForSourceFile (env : Env) (source : SourceFile) (s : State) : Bytes × State :=
  let loc := GetSourceFileLocation env source (s.emit (.calcSource source.name))
  let fileLocation := loc.1
  let s1 := loc.2
  if fileLocation = "" then (env.hash [], s1)
  else
    let r := env.readFile fileLocation
    let s2 := s1.emit (.readFile fileLocation)
    let s3 := if r.failed then s2.emit (.logReadFailed fileLocation) else s2
    (env.hash r.data, s3)

/-- First loop of `CalculateHashForRule`: serialize the attributes into the running hash `h`
(the bytes written so far); `none` when `proto.CompactText` fails and `log.Fatalf` exits. -/
def writeAttributes (env : Env) : List Attribute → Bytes → Option Bytes
  | [], h => some h
  | a :: rest, h =>
    match env.compactText a with
    | none => none
    | some b => writeAttributes env rest (h ++ b)

/-- Second loop of `CalculateHashForRule`, `callee` being the callee `CalculateHash`. -/
def writeInputs (callee : String → Option Target → TargetMap → State → Res (Bytes × State))
    (targetMap : TargetMap) : List String → Bytes → State → Res (Bytes × State)
  | [], h, s => .ok (h, s)
  | i :: rest, h, s =>
    match targetMap i with
    | none => writeInputs callee targetMap rest h (s.emit (.logNotFound i))
    | some _ =>
      match callee i (targetMap i) targetMap s with
      | .ok (d, s1) => writeInputs callee targetMap rest (h ++ d) s1
      | .fatal => .fatal
      | .panic => .panic
      | .outOfFuel => .outOfFuel

/-- The bytes `CalculateHashForRule` has written to its running hash when both loops are done,
`callee` being the callee `CalculateHash`. -/
def ruleHashInput
    (env : Env) (callee : String → Option Target → TargetMap → State → Res (Bytes × State))
    (rule : Rule) (targetMap : TargetMap) (s : State) : Res (Bytes × State) :=
  match writeAttributes env (GetRuleAttributes rule) [] with
  | none => .fatal
  | some h => writeInputs callee targetMap rule.ruleInput h (s.emit (.calcRule rule.name))

/-- Body of `CalculateHashForRule`, `callee` being the callee `CalculateHash`. -/
def CalculateHashForRuleWith
    (env : Env) (callee : String → Option Target → TargetMap → State → Res (Bytes × State))
    (rule : Rule) (targetMap : TargetMap) (s : State) : Res (Bytes × State) :=
  match ruleHashInput env callee rule targetMap s with
  | .ok (h1, s1) => .ok (env.hash h1, s1)
  | .fatal => .fatal
  | .panic => .panic
  | .outOfFuel => .outOfFuel

/-- The function `CalculateHash`. Each call has its own `label` variable, whose address is the
key used on `hashedTargets`; `fuel` bounds the depth of nested `CalculateHash` calls. -/
def CalculateHash (env : Env) :
    Nat → String → Option Target → TargetMap → State → Res (Bytes × State)
  | 0, _, _, _, _ => .outOfFuel
  | fuel + 1, label, target, targetMap, s =>
    let addr := s.heap.length
    let s0 := { s with heap := s.heap ++ [label] }
    match s0.hashedTargets.lookup addr with
    | some cachedTarget => .ok (cachedTarget, s0)
    | none =>
      match target with
      | none => .panic
      | some (.rule r) =>
        match CalculateHashForRuleWith env (CalculateHash env fuel) r targetMap s0 with
        | .ok (d, s1) =>
          .ok (env.hash d, { s1 with hashedTargets := (addr, env.hash d) :: s1.hashedTargets })
        | .fatal => .fatal
        | .panic => .panic
        | .outOfFuel => .outOfFuel
      | some (.sourceFile f) =>
        let r := CalculateHashForSourceFile env f s0
        .ok (env.hash r.1, { r.2 with hashedTargets := (addr, env.hash r.1) :: r.2.hashedTargets })
      | some (.generatedFile g) =>
        match CalculateHash env fuel label (targetMap g.generatingRule) targetMap s0 with
        | .ok (d, s1) =>
          .ok (env.hash d, { s1 with hashedTargets := (addr, env.hash d) :: s1.hashedTargets })
        | .fatal => .fatal
        | .panic => .panic
        | .outOfFuel => .outOfFuel
      | some _ =>
        let s1 := s0.emit (.logSkipped label)
        .ok (env.hash [], { s1 with hashedTargets := (addr, env.hash []) :: s1.hashedTargets })

/-- The function `CalculateHashForRule`, its calls to `CalculateHash` nested at most `fuel`
deep. -/
def CalculateHashForRule (env : Env) (fuel : Nat) (rule : Rule) (targetMap : TargetMap)
    (s : State) : Res (Bytes × State) :=
  CalculateHashForRuleWith env (CalculateHash env fuel) rule targetMap s

/-! ## Invariants of the state -/

/-- Every key of `hashedTargets` is the address of a variable allocated earlier. -/
def State.FreshKeys (s : State) : Prop :=
  ∀ p ∈ s.hashedTargets, p.1 < s.heap.length

/-- Every entry of `cachedSourceFileLocations` records what `os.Stat` says about its path. -/
def State.CacheSound (env : Env) (s : State) : Prop :=
  ∀ p ∈ s.cachedSourceFileLocations, p.2 = if env.stat p.1 = .ok then p.1 else ""

/-- The two invariants together. -/
def State.WF (env : Env) (s : State) : Prop :=
  s.FreshKeys ∧ s.CacheSound env

/-- States a run can be in between two top-level calls of `CalculateHash`: the run starts with
both maps empty, and each call that returns leaves the next state. -/
inductive Reachable (env : Env) : State → Prop where
  | init : Reachable env State.init
  | call {s s1 : State} {d : Bytes} (fuel : Nat) (label : String) (target : Option Target)
      (targetMap : TargetMap) :
      Reachable env s → CalculateHash env fuel label target targetMap s = .ok (d, s1) →
      Reachable env s1

/-! ## The digest as a function of the target map and the filesystem alone -/

/-- What `GetSourceFileLocation` returns when it asks the filesystem. -/
def resolve (env : Env) (source : SourceFile) : String :=
  if env.stat (combinedPath env source) = .ok then combinedPath env source else ""

/-- Digest of a source file computed from the filesystem. -/
def sourceDigest (env : Env) (source : SourceFile) : Bytes :=
  if resolve env source = "" then env.hash []
  else env.hash (env.readFile (resolve env source)).data

/-- Bytes the second loop of `CalculateHashForRule` adds, for a state-free callee. -/
def inputDigests (callee : Option Target → Res Bytes) (targetMap : TargetMap) :
    List String → Bytes → Res Bytes
  | [], h => .ok h
  | i :: rest, h =>
    match targetMap i with
    | none => inputDigests callee targetMap rest h
    | some _ =>
      match callee (targetMap i) with
      | .ok d => inputDigests callee targetMap rest (h ++ d)
      | .fatal => .fatal
      | .panic => .panic
      | .outOfFuel => .outOfFuel

/-- The byte string hashed for a rule, for a state-free callee. -/
def ruleBytesWith (env : Env) (callee : Option Target → Res Bytes) (rule : Rule)
    (targetMap : TargetMap) : Res Bytes :=
  match writeAttributes env (GetRuleAttributes rule) [] with
  | none => .fatal
  | some h => inputDigests callee targetMap rule.ruleInput h

/-- The digest of a target, state-free. -/
def digestOf (env : Env) : Nat → Option Target → TargetMap → Res Bytes
  | 0, _, _ => .outOfFuel
  | _ + 1, none, _ => .panic
  | fuel + 1, some (.rule r), targetMap =>
    (ruleBytesWith env (fun t => digestOf env fuel t targetMap) r targetMap).map
      (fun b => env.hash (env.hash b))
  | _ + 1, some (.sourceFile f), _ => .ok (env.hash (sourceDigest env f))
  | fuel + 1, some (.generatedFile g), targetMap =>
    (digestOf env fuel (targetMap g.generatingRule) targetMap).map env.hash
  | _ + 1, some (.packageGroup _), _ => .ok (env.hash [])
  | _ + 1, some (.other _), _ => .ok (env.hash [])

/-- The byte string hashed for a rule, state-free. -/
def ruleBytes (env : Env) (fuel : Nat) (rule : Rule) (targetMap : TargetMap) : Res Bytes :=
  ruleBytesWith env (fun t => digestOf env fuel t targetMap) rule targetMap

/-- What a returning call guarantees about the state it leaves. -/
def Post (env : Env) (s s1 : State) : Prop :=
  s1.WF env ∧ s.heap.length ≤ s1.heap.length

/-- A callee agrees with a state-free function and keeps the invariants. -/
def Refines (env : Env) (targetMap : TargetMap)
    (callee : String → Option Target → TargetMap → State → Res (Bytes × State))
    (pure : Option Target → Res Bytes) : Prop :=
  ∀ label target s, s.WF env →
    (callee label target targetMap s).value = pure target ∧
    ∀ d s1, callee label target targetMap s = .ok (d, s1) → Post env s s1

/-! ## A worked example -/

/-- A two-byte polynomial checksum, standing in for the hash in worked examples. -/
def demoHash (b : Bytes) : Bytes :=
  let n := b.foldl (fun acc x => (acc * 31 + x.toNat + 7) % 65521) 1
  [UInt8.ofNat (n / 256), UInt8.ofNat (n % 256)]

/-- Directory part of a slash-separated path, for worked examples. -/
def demoDir (p : String) : String :=
  String.mk ((p.data.reverse.dropWhile (fun c => c != '/')).drop 1).reverse

/-- The bytes of an ASCII string. -/
def asciiBytes (s : String) : Bytes := s.data.map (fun c => UInt8.ofNat c.toNat)

/-- An environment for worked examples: one file, `/ws/x.go`, holding `package main`. -/
def demoEnv : Env where
  hash := demoHash
  compactText := fun a => some (asciiBytes a.name ++ a.value)
  dir := demoDir
  join := fun a b => a ++ "/" ++ b
  stat := fun p => if p = "/ws/x.go" then .ok else .notExist
  readFile := fun p =>
    if p = "/ws/x.go" then ⟨asciiBytes "package main", false⟩ else ⟨[], true⟩

/-- The rule of the scenario: attributes `[("srcs", "x.go")]`, one input `//:x.go`. -/
def demoA : Rule := ⟨"//:A", "go_library", [⟨"srcs", asciiBytes "x.go"⟩], ["//:x.go"]⟩

/-- The source file of the scenario, declared in `/ws/BUILD`. -/
def demoX : SourceFile := ⟨"//:x.go", "/ws/BUILD:1:1"⟩

/-- The target map of the scenario. -/
def demoMap : TargetMap := fun l =>
  if l = "//:A" then some (.rule demoA)
  else if l = "//:x.go" then some (.sourceFile demoX)
  else none

/-- The state the scenario is in after `CalculateHash` has returned for `//:A` once. -/
def demoAfterA : State where
  heap := ["//:A", "//:x.go"]
  hashedTargets := [(0, [26, 102]), (1, [35, 118])]
  cachedSourceFileLocations := [("/ws/x.go", "/ws/x.go")]
  trace := [.calcRule "//:A", .calcSource "//:x.go", .stat "/ws/x.go", .readFile "/ws/x.go"]

/-- The state of the scenario inside the first top-level call, the one for `//:A`, at the point
where `CalculateHash` calls `CalculateHashForRule`: the `label` variable of the call is
allocated and nothing is stored yet. -/
def demoInCall : State := ⟨["//:A"], [], [], []⟩

/-- The state of the scenario inside the first top-level call, at the point where
`CalculateHashForRule` calls `CalculateHash` for the first input of `//:A`. -/
def demoInRule : State := ⟨["//:A"], [], [], [.calcRule "//:A"]⟩

/-- The calls the second loop of `CalculateHashForRule` makes, one after the other:
`InputCalls env fuel targetMap inputs s ds s1` says that the loop over `inputs`, started in
state `s`, skips the absent inputs, calls `CalculateHash` for each present one in the state the
previous call left, gets the digests `ds` in this order, and ends in state `s1`. -/
inductive InputCalls (env : Env) (fuel : Nat) (targetMap : TargetMap) :
    List String → State → List Bytes → State → Prop where
  | done (s : State) : InputCalls env fuel targetMap [] s [] s
  | absent {i : String} {rest : List String} {s s1 : State} {ds : List Bytes} :
      targetMap i = none →
      InputCalls env fuel targetMap rest (s.emit (.logNotFound i)) ds s1 →
      InputCalls env fuel targetMap (i :: rest) s ds s1
  | present {i : String} {rest : List String} {s s1 s2 : State} {d : Bytes} {ds : List Bytes} :
      (targetMap i).isSome = true →
      CalculateHash env fuel i (targetMap i) targetMap s = .ok (d, s1) →
      InputCalls env fuel targetMap rest s1 ds s2 →
      InputCalls env fuel targetMap (i :: rest) s (d :: ds) s2

/-! ## Comparing two target maps -/

/-- The inputs of a rule that the target map holds, in order. -/
def presentInputs (targetMap : TargetMap) (inputs : List String) : List String :=
  inputs.filter (fun i => (targetMap i).isSome)

/-- Two targets, each read in its own target map, hand `CalculateHash` the same material: they
are equal, or they are rules with the same kept attributes and the same present inputs. -/
def SameHashInput (tm1 tm2 : TargetMap) (t1 t2 : Option Target) : Prop :=
  t1 = t2 ∨ ∃ r1 r2, t1 = some (.rule r1) ∧ t2 = some (.rule r2) ∧
    GetRuleAttributes r1 = GetRuleAttributes r2 ∧
    presentInputs tm1 r1.ruleInput = presentInputs tm2 r2.ruleInput

/-- Two target maps that agree label by label up to `SameHashInput`. -/
def MapSim (tm1 tm2 : TargetMap) : Prop :=
  ∀ l, SameHashInput tm1 tm2 (tm1 l) (tm2 l)

/-- The three attribute names `GetRuleAttributes` drops. -/
def ignoredNames : List String := ["build_file", "generator_location", "path"]

/-- The list `attrs2` is `attrs1` with the values of some attributes named `build_file`,
`generator_location` or `path` replaced; names, order and all other values are the same. -/
def ValuesReplaced (attrs1 attrs2 : List Attribute) : Prop :=
  List.Forall₂
    (fun a1 a2 => a1.name = a2.name ∧ (a1.value ≠ a2.value → a1.name ∈ ignoredNames))
    attrs1 attrs2

/-- A rule with a `build_file` attribute and a dangling input, over the scenario's source. -/
def demoB : Rule :=
  ⟨"//:B", "go_library",
    [⟨"build_file", asciiBytes "/ws/BUILD"⟩, ⟨"srcs", asciiBytes "x.go"⟩],
    ["//:gone", "//:x.go"]⟩

/-- The scenario's target map with `demoB` added. -/
def demoMapB : TargetMap := fun l => if l = "//:B" then some (.rule demoB) else demoMap l

/-- The example environment with `/ws/x.go` present and empty. -/
def demoEnvEmptyFile : Env :=
  { demoEnv with readFile := fun _ => ⟨[], false⟩ }

/-- The example environment with a read of `/ws/x.go` that fails after the first seven bytes:
`ioutil.ReadFile` returns what it has read together with the error. -/
def demoEnvTornRead : Env :=
  { demoEnv with readFile := fun _ => ⟨asciiBytes "package", true⟩ }

/-- A generated file of the scenario, generated by rule `//:A`. -/
def demoG : GeneratedFile := ⟨"//:gen.go", "//:A"⟩

/-- A package group of the scenario. -/
def demoP : PackageGroup := ⟨"//:friends"⟩

/-- A rule that lists the generated file and the package group as inputs. -/
def demoUser : Rule := ⟨"//:user", "go_binary", [], ["//:gen.go", "//:friends"]⟩

/-- The scenario's target map with `demoG`, `demoP` and `demoUser` added. -/
def demoMapG : TargetMap := fun l =>
  if l = "//:gen.go" then some (.generatedFile demoG)
  else if l = "//:friends" then some (.packageGroup demoP)
  else if l = "//:user" then some (.rule demoUser)
  else demoMap l

/-- The state inside the top-level call for `//:user`, started with empty maps, at the point
where `CalculateHashForRule` calls `CalculateHash` for the first input. -/
def demoInUser : State := ⟨["//:user"], [], [], [.calcRule "//:user"]⟩

/-- The state inside the top-level call for `//:user` after the nested call for its first
input `//:gen.go` has returned, in which the loop calls `CalculateHash` for `//:friends`. -/
def demoAfterGen : State where
  heap := ["//:user", "//:gen.go", "//:gen.go", "//:x.go"]
  hashedTargets := [(1, [8, 45]), (2, [26, 102]), (3, [35, 118])]
  cachedSourceFileLocations := [("/ws/x.go", "/ws/x.go")]
  trace := [.calcRule "//:user", .calcRule "//:A", .calcSource "//:x.go", .stat "/ws/x.go",
    .readFile "/ws/x.go"]

/-! ## Dependency sensitivity: vocabulary -/

/-- The digest `CalculateHash` returns for the label `l` of a target map: some budget suffices,
in some state that satisfies the invariants of the run (at top level or inside another call). -/
def Returns (env : Env) (targetMap : TargetMap) (l : String) (d : Bytes) : Prop :=
  ∃ fuel s s1, s.WF env ∧
    CalculateHash env fuel l (targetMap l) targetMap s = .ok (d, s1)

/-- The byte string `CalculateHashForRule` has fed to its running hash when it calls `Sum`, in
some state that satisfies the invariants of the run. -/
def HashesBytes (env : Env) (targetMap : TargetMap) (rule : Rule) (b : Bytes) : Prop :=
  ∃ fuel s s1, s.WF env ∧
    ruleHashInput env (CalculateHash env fuel) rule targetMap s = .ok (b, s1)

/-- The label `l` holds a rule in both target maps, with the same input list and the same
inputs present; its attributes may differ. -/
def StableRule (tm1 tm2 : TargetMap) (l : String) (r1 r2 : Rule) : Prop :=
  tm1 l = some (.rule r1) ∧ tm2 l = some (.rule r2) ∧
  r1.ruleInput = r2.ruleInput ∧
  ∀ i ∈ r1.ruleInput, (tm1 i).isSome = (tm2 i).isSome

/-- The labels `l, path...` form a path through rule inputs that ends in `t`: every label but
the last holds a stable rule that lists the next label, which is present. -/
def Chain (tm1 tm2 : TargetMap) : String → List String → String → Prop
  | l, [], t => l = t
  | l, m :: rest, t =>
    (∃ r1 r2, StableRule tm1 tm2 l r1 r2 ∧ m ∈ r1.ruleInput ∧ (tm1 m).isSome = true) ∧
      Chain tm1 tm2 m rest t

/-- The hash function does not collide on the byte strings hashed for the rule at `l` in the two
graphs, nor on their hashes. -/
def NoCollisionAt (env1 env2 : Env) (tm1 tm2 : TargetMap) (l : String) : Prop :=
  ∀ r1 r2 b1 b2, tm1 l = some (.rule r1) → tm2 l = some (.rule r2) →
    HashesBytes env1 tm1 r1 b1 → HashesBytes env2 tm2 r2 b2 → b1 ≠ b2 →
    env1.hash (env1.hash b1) ≠ env1.hash (env1.hash b2)

/-! ## Two graphs that differ below a rule -/

/-- The example environment with the files `/ws/a.go`, `/ws/b.go`, `/ws/c.go`, holding the
given contents. -/
def filesEnv (a b c : String) : Env :=
  { demoEnv with
    stat := fun p =>
      if p = "/ws/a.go" ∨ p = "/ws/b.go" ∨ p = "/ws/c.go" then .ok else .notExist
    readFile := fun p =>
      if p = "/ws/a.go" then ⟨asciiBytes a, false⟩
      else if p = "/ws/b.go" then ⟨asciiBytes b, false⟩
      else if p = "/ws/c.go" then ⟨asciiBytes c, false⟩
      else ⟨[], true⟩ }

/-- Before the change: `a.go` and `c.go` hold `one`, `b.go` holds `two`. -/
def envBefore : Env := filesEnv "one" "two" "one"

/-- After the change: `b.go` holds `one`, `c.go` holds `two`. -/
def envAfter : Env := filesEnv "one" "one" "two"

/-- The source file target for a file name in `/ws`. -/
def srcTarget (name : String) : Option Target :=
  some (.sourceFile ⟨"//:" ++ name, "/ws/BUILD:1:1"⟩)

/-- A rule `//:top` whose only input is the rule `//:mid`. -/
def demoTop : Rule := ⟨"//:top", "go_binary", [], ["//:mid"]⟩

/-- The rule `//:mid` before the change: inputs `c.go`, `b.go`. -/
def demoMidBefore : Rule := ⟨"//:mid", "go_library", [], ["//:c.go", "//:b.go"]⟩

/-- The rule `//:mid` after the change: the same inputs in the other order. -/
def demoMidAfter : Rule := ⟨"//:mid", "go_library", [], ["//:b.go", "//:c.go"]⟩

/-- A rule `//:wide` with three inputs. -/
def demoWide : Rule := ⟨"//:wide", "go_library", [], ["//:a.go", "//:b.go", "//:c.go"]⟩

/-- The graph before the change: `//:top` depends on `//:mid`, which depends on two files. -/
def mapBefore : TargetMap := fun l =>
  if l = "//:top" then some (.rule demoTop)
  else if l = "//:mid" then some (.rule demoMidBefore)
  else if l = "//:b.go" then srcTarget "b.go"
  else if l = "//:c.go" then srcTarget "c.go"
  else none

/-- The graph after the change. -/
def mapAfter : TargetMap := fun l =>
  if l = "//:top" then some (.rule demoTop)
  else if l = "//:mid" then some (.rule demoMidAfter)
  else if l = "//:b.go" then srcTarget "b.go"
  else if l = "//:c.go" then srcTarget "c.go"
  else none

/-- A graph with `//:wide`, `a.go` and `b.go`; `//:c.go` is dangling. -/
def wideBefore : TargetMap := fun l =>
  if l = "//:wide" then some (.rule demoWide)
  else if l = "//:a.go" then srcTarget "a.go"
  else if l = "//:b.go" then srcTarget "b.go"
  else none

/-- The same graph with `a.go` removed and `c.go` added. -/
def wideAfter : TargetMap := fun l =>
  if l = "//:wide" then some (.rule demoWide)
  else if l = "//:b.go" then srcTarget "b.go"
  else if l = "//:c.go" then srcTarget "c.go"
  else none

/-- The files of `envBefore` with the content of `b.go` changed to `three`. -/
def envChanged : Env := filesEnv "one" "three" "one"

/-- The rule `//:mid` with an attribute added and its inputs unchanged. -/
def demoMidTagged : Rule :=
  ⟨"//:mid", "go_library", [⟨"tags", asciiBytes "manual"⟩], ["//:c.go", "//:b.go"]⟩

/-- The graph `mapBefore` with `//:mid` replaced by `demoMidTagged`. -/
def mapTagged : TargetMap := fun l =>
  if l = "//:mid" then some (.rule demoMidTagged) else mapBefore l

/-! ## Graph construction (`GetLabel`, `CreateTargetMap`) -/

/-- The function `GetLabel`: the name of the payload that the kind selects; for any other kind
the `switch` falls through to `log.Fatalf`. -/
def GetLabel : Target → Res String
  | .rule r => .ok r.name
  | .sourceFile f => .ok f.name
  | .generatedFile g => .ok g.name
  | .packageGroup p => .ok p.name
  | .other _ => .fatal

/-- The loop of `CreateTargetMap`, `result` being the map built so far. -/
def createTargetMapLoop : List Target → TargetMap → Res TargetMap
  | [], result => .ok result
  | target :: rest, result =>
    match GetLabel target with
    | .ok label => createTargetMapLoop rest (Function.update result label (some target))
    | .fatal => .fatal
    | .panic => .panic
    | .outOfFuel => .outOfFuel

/-- The function `CreateTargetMap`. -/
def CreateTargetMap (targets : List Target) : Res TargetMap :=
  createTargetMapLoop targets (fun _ => none)

/-- A target whose kind is one of the four that `GetLabel` names. -/
def Target.recognized : Target → Bool
  | .other _ => false
  | _ => true

/-- The last target of the list whose label is `l`. -/
def lastWithLabel (targets : List Target) (l : String) : Option Target :=
  (targets.filter (fun t => GetLabel t = .ok l)).getLast?

/-- A decoded target list in which the label `//:A` occurs twice. -/
def demoTargets : List Target :=
  [.rule { demoA with ruleClass := "go_test" }, .sourceFile demoX, .rule demoA]

/-! ## The source location cache -/

/-- States the resolver can be in: the run starts with an empty `cachedSourceFileLocations`, and
each call of `GetSourceFileLocation` leaves the next state. -/
inductive ResolverRun (env : Env) : State → Prop where
  | init : ResolverRun env State.init
  | call {s : State} (source : SourceFile) :
      ResolverRun env s → ResolverRun env (GetSourceFileLocation env source s).2

/-- A resolver without a cache: `GetSourceFileLocation` started on the empty map, so that it
asks the filesystem on every call. -/
def uncachedSourceFileLocation (env : Env) (source : SourceFile) : String :=
  (GetSourceFileLocation env source State.init).1

/-! ## The source files dumper (`cmd/bazel-source-files-dumper/main.go`) -/

/-- The struct `OutputTarget` of the dumper. -/
structure OutputTarget where
  label : String
  inputs : List String
deriving DecidableEq, Repr

/-- The function `strings.HasPrefix`. -/
def stringsHasPrefix (s pre : String) : Bool := pre.data.isPrefixOf s.data

/-- The inner loop of the dumper's `main`, `inputs` being the slice built so far. -/
def dumperInputsLoop : List String → List String → List String
  | [], inputs => inputs
  | input :: rest, inputs =>
    if stringsHasPrefix input "@" then dumperInputsLoop rest inputs
    else dumperInputsLoop rest (inputs ++ [input])

/-- The outer loop of the dumper's `main`, `output` being `output.Targets` so far. -/
def dumperLoop : List Target → List OutputTarget → Res (List OutputTarget)
  | [], output => .ok output
  | target :: rest, output =>
    match GetLabel target with
    | .ok label =>
      match target with
      | .rule r =>
        if stringsHasPrefix label "@" || stringsHasPrefix label "//external" then
          dumperLoop rest output
        else dumperLoop rest (output ++ [⟨label, dumperInputsLoop r.ruleInput []⟩])
      | _ => dumperLoop rest output
    | .fatal => .fatal
    | .panic => .panic
    | .outOfFuel => .outOfFuel

/-- The dumper's `main` from the decoded target list to `output.Targets`. -/
def dumperMain (targets : List Target) : Res (List OutputTarget) :=
  dumperLoop targets []

/-- What the dumper is to print for one target: nothing unless it is a rule whose label starts
with neither `@` nor `//external`; then its label and its inputs without those that start
with `@`. -/
def dumpedTarget : Target → Option OutputTarget
  | .rule r =>
    if stringsHasPrefix r.name "@" || stringsHasPrefix r.name "//external" then none
    else some ⟨r.name, r.ruleInput.filter (fun i => !stringsHasPrefix i "@")⟩
  | _ => none

/-- A decoded target list with external and internal rules. -/
def demoDumpTargets : List Target :=
  [.rule ⟨"@repo//:lib", "go_library", [], []⟩,
   .sourceFile demoX,
   .rule ⟨"//external:jar", "bind", [], []⟩,
   .rule ⟨"//:A", "go_library", [], ["@repo//:lib", "//:x.go", "//external:jar"]⟩]

/-! ## Path computation: vocabulary -/

/-- The list `t` is `s` with its first occurrence of `old` taken out, or `s` itself when `old`
does not occur in it. -/
def FirstRemoved (old s t : List Char) : Prop :=
  ((∀ pre post, s ≠ pre ++ old ++ post) ∧ t = s) ∨
  ∃ pre post, s = pre ++ old ++ post ∧ t = pre ++ post ∧
    ∀ pre1 post1, s = pre1 ++ old ++ post1 → pre.length ≤ pre1.length

/-- The part of a string before its first `sep` (all of it when there is none). -/
def beforeFirst (sep : Char) (s : String) : String :=
  String.mk (s.data.takeWhile (fun c => c != sep))

/-- The part of a character list after its last `sep` (all of it when there is none). -/
def afterLastChars (sep : Char) (s : List Char) : List Char :=
  (s.reverse.takeWhile (fun c => c != sep)).reverse

/-- The name with a leading `//` stripped and any other `//` left in place. -/
def stripLeadingSlashes (name : String) : String :=
  match name.data with
  | '/' :: '/' :: rest => String.mk rest
  | _ => name

/-- The path that results when `pathFromTarget` is taken from the name with only a leading `//`
stripped. -/
def combinedPathLeadingOnly (env : Env) (source : SourceFile) : String :=
  env.join (env.dir (beforeFirst ':' source.location))
    (String.mk (afterLastChars ':' (stripLeadingSlashes source.name).data))

/-! ## Termination: vocabulary -/

/-- The rule-input relation of a target map: `l` holds a rule that lists `i`, and `i` is
present. -/
def RuleInputOf (targetMap : TargetMap) (l i : String) : Prop :=
  ∃ r, targetMap l = some (.rule r) ∧ i ∈ r.ruleInput ∧ (targetMap i).isSome = true

/-- The calls `CalculateHash` makes: digesting the target at `l` digests the target at `i`
when `i` is a present input of the rule at `l`, or the generating rule of the generated file
at `l`. -/
def DependsOn (targetMap : TargetMap) (l i : String) : Prop :=
  RuleInputOf targetMap l i ∨ ∃ g, targetMap l = some (.generatedFile g) ∧ g.generatingRule = i

/-- The relation has no cycle and no infinite descending path; for the finite maps the program
builds, the two are the same. -/
def Acyclic (rel : String → String → Prop) : Prop :=
  WellFounded (fun i l => rel l i)

/-- A target map with one generated file that names itself as its generating rule. -/
def selfGeneratedMap : TargetMap := fun l =>
  if l = "//:g" then some (.generatedFile ⟨"//:g", "//:g"⟩) else none

/-- The depth of the labels of the scenario `demoMap` in its dependency order. -/
def demoRank (l : String) : Nat := if l = "//:A" then 1 else 0

/-- Two rules that list each other as inputs. -/
def cycleMap : TargetMap := fun l =>
  if l = "//:A" then some (.rule ⟨"//:A", "go_library", [], ["//:B"]⟩)
  else if l = "//:B" then some (.rule ⟨"//:B", "go_library", [], ["//:A"]⟩)
  else none

/-- Two rules that list each other as inputs, the first one after a generated file whose
generating rule `//:gone` is not in the map. -/
def crashCycleMap : TargetMap := fun l =>
  if l = "//:A" then some (.rule ⟨"//:A", "go_library", [], ["//:out", "//:B"]⟩)
  else if l = "//:B" then some (.rule ⟨"//:B", "go_library", [], ["//:A"]⟩)
  else if l = "//:out" then some (.generatedFile ⟨"//:out", "//:gone"⟩)
  else none

/-! ## Basic facts -/

theorem Res.value_ok {α : Type} {r : Res (α × State)} {a : α} {s : State}
    (h : r = .ok (a, s)) : r.value = .ok a := by
  subst h; rfl

theorem Res.value_eq_ok {α : Type} {r : Res (α × State)} {a : α}
    (h : r.value = .ok a) : ∃ s, r = .ok (a, s) := by
  cases r with
  | ok p =>
    obtain ⟨a1, s⟩ := p
    simp only [Res.value, Res.map, Res.ok.injEq] at h
    exact ⟨s, by rw [h]⟩
  | fatal => simp [Res.value, Res.map] at h
  | panic => simp [Res.value, Res.map] at h
  | outOfFuel => simp [Res.value, Res.map] at h

theorem State.init_WF (env : Env) : State.init.WF env := by
  constructor
  · intro p hp; simp [State.init] at hp
  · intro p hp; simp [State.init] at hp

theorem lookup_eq_none_of_forall_ne {β : Type} (l : List (Nat × β)) (a : Nat)
    (h : ∀ p ∈ l, p.1 ≠ a) : l.lookup a = none := by
  induction l with
  | nil => rfl
  | cons p l ih =>
    obtain ⟨k, v⟩ := p
    have hk : k ≠ a := h (k, v) (List.mem_cons_self _ _)
    have hne : (a == k) = false := by
      simp only [beq_eq_false_iff_ne, ne_eq]
      exact fun e => hk e.symm
    simp only [List.lookup, hne]
    exact ih (fun q hq => h q (List.mem_cons_of_mem _ hq))

/-- The lookup at the head of `CalculateHash` finds nothing: the key is a new address. -/
theorem State.FreshKeys.lookup_miss {s : State} (h : s.FreshKeys) :
    s.hashedTargets.lookup s.heap.length = none :=
  lookup_eq_none_of_forall_ne _ _ (fun p hp => Nat.ne_of_lt (h p hp))

theorem lookup_mem {l : List (String × String)} {k v : String}
    (h : l.lookup k = some v) : (k, v) ∈ l := by
  induction l with
  | nil => simp [List.lookup] at h
  | cons p l ih =>
    obtain ⟨k1, v1⟩ := p
    simp only [List.lookup] at h
    split at h
    · rename_i heq
      have hk : k = k1 := by simpa using heq
      simp only [Option.some.injEq] at h
      subst hk; subst h
      exact List.mem_cons_self _ _
    · exact List.mem_cons_of_mem _ (ih h)

/-! ## The program computes the state-free digest -/

theorem GetSourceFileLocation_spec (env : Env) (source : SourceFile) (s : State)
    (h : s.CacheSound env) :
    (GetSourceFileLocation env source s).1 = resolve env source ∧
    (GetSourceFileLocation env source s).2.CacheSound env ∧
    (GetSourceFileLocation env source s).2.heap = s.heap ∧
    (GetSourceFileLocation env source s).2.hashedTargets = s.hashedTargets := by
  unfold GetSourceFileLocation
  simp only
  split
  · rename_i value hv
    have := h _ (lookup_mem hv)
    simp only at this
    exact ⟨by rw [this]; rfl, h, rfl, rfl⟩
  · cases hst : env.stat (combinedPath env source) with
    | ok =>
      refine ⟨by simp [resolve, hst], ?_, rfl, rfl⟩
      intro p hp
      simp only [State.emit, List.mem_cons] at hp
      rcases hp with rfl | hp
      · simp [hst]
      · exact h p hp
    | notExist =>
      refine ⟨by simp [resolve, hst], ?_, rfl, rfl⟩
      intro p hp
      simp only [State.emit, List.mem_cons] at hp
      rcases hp with rfl | hp
      · simp [hst]
      · exact h p hp
    | error =>
      refine ⟨by simp [resolve, hst], ?_, rfl, rfl⟩
      intro p hp
      simp only [State.emit, List.mem_cons] at hp
      rcases hp with rfl | hp
      · simp [hst]
      · exact h p hp

theorem CalculateHashForSourceFile_spec (env : Env) (source : SourceFile) (s : State)
    (h : s.CacheSound env) :
    (CalculateHashForSourceFile env source s).1 = sourceDigest env source ∧
    (CalculateHashForSourceFile env source s).2.CacheSound env ∧
    (CalculateHashForSourceFile env source s).2.heap = s.heap ∧
    (CalculateHashForSourceFile env source s).2.hashedTargets = s.hashedTargets := by
  have h0 : (s.emit (.calcSource source.name)).CacheSound env := h
  obtain ⟨h1, h2, h3, h4⟩ := GetSourceFileLocation_spec env source _ h0
  unfold CalculateHashForSourceFile sourceDigest
  simp only [h1]
  split
  · exact ⟨rfl, h2, h3, h4⟩
  · refine ⟨rfl, ?_, ?_, ?_⟩
    · split
      · exact h2
      · exact h2
    · split
      · exact h3
      · exact h3
    · split
      · exact h4
      · exact h4


theorem Post.same {env : Env} {s : State} (h : s.WF env) : Post env s s := ⟨h, le_refl _⟩

theorem Post.trans {env : Env} {s s1 s2 : State} (h1 : Post env s s1) (h2 : Post env s1 s2) :
    Post env s s2 := ⟨h2.1, le_trans h1.2 h2.2⟩

theorem writeInputs_spec {env : Env} {targetMap : TargetMap}
    {callee : String → Option Target → TargetMap → State → Res (Bytes × State)}
    {pure : Option Target → Res Bytes} (hc : Refines env targetMap callee pure) :
    ∀ (inputs : List String) (h : Bytes) (s : State), s.WF env →
      (writeInputs callee targetMap inputs h s).value = inputDigests pure targetMap inputs h ∧
      ∀ h1 s1, writeInputs callee targetMap inputs h s = .ok (h1, s1) → Post env s s1 := by
  intro inputs
  induction inputs with
  | nil =>
    intro h s hs
    refine ⟨rfl, ?_⟩
    intro h1 s1 e
    simp only [writeInputs, Res.ok.injEq, Prod.mk.injEq] at e
    rw [← e.2]
    exact Post.same hs
  | cons i rest ih =>
    intro h s hs
    cases hti : targetMap i with
    | none =>
      have hs1 : (s.emit (.logNotFound i)).WF env := hs
      obtain ⟨e1, e2⟩ := ih h _ hs1
      simp only [writeInputs, inputDigests, hti]
      exact ⟨e1, fun h1 s1 e => ⟨(e2 h1 s1 e).1, (e2 h1 s1 e).2⟩⟩
    | some t =>
      obtain ⟨c1, c2⟩ := hc i (some t) s hs
      simp only [writeInputs, inputDigests, hti]
      cases hr : callee i (some t) targetMap s with
      | ok p =>
        obtain ⟨d, s1⟩ := p
        rw [hr] at c1
        have hp : pure (some t) = .ok d := c1.symm
        have hpost := c2 d s1 hr
        obtain ⟨e1, e2⟩ := ih (h ++ d) s1 hpost.1
        simp only [hp]
        exact ⟨e1, fun h1 s2 e => hpost.trans (e2 h1 s2 e)⟩
      | fatal =>
        rw [hr] at c1
        have hp : pure (some t) = .fatal := c1.symm
        simp only [hp]
        exact ⟨rfl, fun h1 s2 e => by cases e⟩
      | panic =>
        rw [hr] at c1
        have hp : pure (some t) = .panic := c1.symm
        simp only [hp]
        exact ⟨rfl, fun h1 s2 e => by cases e⟩
      | outOfFuel =>
        rw [hr] at c1
        have hp : pure (some t) = .outOfFuel := c1.symm
        simp only [hp]
        exact ⟨rfl, fun h1 s2 e => by cases e⟩

theorem ruleHashInput_spec {env : Env} {targetMap : TargetMap}
    {callee : String → Option Target → TargetMap → State → Res (Bytes × State)}
    {pure : Option Target → Res Bytes} (hc : Refines env targetMap callee pure)
    (rule : Rule) (s : State) (hs : s.WF env) :
    (ruleHashInput env callee rule targetMap s).value = ruleBytesWith env pure rule targetMap ∧
    ∀ h1 s1, ruleHashInput env callee rule targetMap s = .ok (h1, s1) → Post env s s1 := by
  unfold ruleHashInput ruleBytesWith
  cases writeAttributes env (GetRuleAttributes rule) [] with
  | none => exact ⟨rfl, fun h1 s1 e => by cases e⟩
  | some h =>
    have hs1 : (s.emit (.calcRule rule.name)).WF env := hs
    obtain ⟨e1, e2⟩ := writeInputs_spec hc rule.ruleInput h _ hs1
    exact ⟨e1, fun h1 s1 e => ⟨(e2 h1 s1 e).1, (e2 h1 s1 e).2⟩⟩

theorem CalculateHashForRuleWith_spec {env : Env} {targetMap : TargetMap}
    {callee : String → Option Target → TargetMap → State → Res (Bytes × State)}
    {pure : Option Target → Res Bytes} (hc : Refines env targetMap callee pure)
    (rule : Rule) (s : State) (hs : s.WF env) :
    (CalculateHashForRuleWith env callee rule targetMap s).value =
      (ruleBytesWith env pure rule targetMap).map env.hash ∧
    ∀ d s1, CalculateHashForRuleWith env callee rule targetMap s = .ok (d, s1) → Post env s s1 := by
  obtain ⟨e1, e2⟩ := ruleHashInput_spec hc rule s hs
  unfold CalculateHashForRuleWith
  cases hr : ruleHashInput env callee rule targetMap s with
  | ok p =>
    obtain ⟨h1, s1⟩ := p
    rw [hr] at e1
    simp only
    refine ⟨by rw [← e1]; rfl, ?_⟩
    intro d s2 e
    simp only [Res.ok.injEq, Prod.mk.injEq] at e
    rw [← e.2]
    exact e2 h1 s1 hr
  | fatal =>
    rw [hr] at e1
    exact ⟨by rw [← e1]; rfl, fun d s2 e => by cases e⟩
  | panic =>
    rw [hr] at e1
    exact ⟨by rw [← e1]; rfl, fun d s2 e => by cases e⟩
  | outOfFuel =>
    rw [hr] at e1
    exact ⟨by rw [← e1]; rfl, fun d s2 e => by cases e⟩

theorem WF_store {env : Env} {s : State} (h : s.WF env) (a : Nat) (d : Bytes)
    (ha : a < s.heap.length) :
    ({ s with hashedTargets := (a, d) :: s.hashedTargets } : State).WF env := by
  refine ⟨?_, h.2⟩
  intro p hp
  simp only [List.mem_cons] at hp
  rcases hp with rfl | hp
  · exact ha
  · exact h.1 p hp

theorem WF_alloc {env : Env} {s : State} (h : s.WF env) (label : String) :
    ({ s with heap := s.heap ++ [label] } : State).WF env := by
  refine ⟨?_, h.2⟩
  intro p hp
  have := h.1 p hp
  simp only [List.length_append, List.length_singleton]
  omega

theorem CalculateHash_refines (env : Env) (targetMap : TargetMap) :
    ∀ fuel, Refines env targetMap (CalculateHash env fuel)
      (fun t => digestOf env fuel t targetMap) := by
  intro fuel
  induction fuel with
  | zero =>
    intro label target s _
    exact ⟨by simp [CalculateHash, digestOf, Res.value, Res.map], fun d s1 e => by
      simp [CalculateHash] at e⟩
  | succ fuel ih =>
    intro label target s hs
    have hs0 : ({ s with heap := s.heap ++ [label] } : State).WF env := WF_alloc hs label
    have hmiss : s.hashedTargets.lookup s.heap.length = none := hs.1.lookup_miss
    have hlen : s.heap.length < (s.heap ++ [label]).length := by simp
    unfold CalculateHash
    simp only [hmiss]
    cases target with
    | none => exact ⟨by simp [digestOf, Res.value, Res.map], fun d s1 e => by cases e⟩
    | some t =>
      cases t with
      | rule r =>
        obtain ⟨e1, e2⟩ := CalculateHashForRuleWith_spec ih r _ hs0
        simp only [digestOf]
        cases hr : CalculateHashForRuleWith env (CalculateHash env fuel) r targetMap
            { s with heap := s.heap ++ [label] } with
        | ok p =>
          obtain ⟨d, s1⟩ := p
          rw [hr] at e1
          have hpost := e2 d s1 hr
          simp only
          constructor
          · cases hb : ruleBytesWith env (fun t => digestOf env fuel t targetMap) r targetMap with
            | ok b =>
              rw [hb] at e1
              simp only [Res.value, Res.map, Res.ok.injEq] at e1
              simp [Res.value, Res.map, e1]
            | fatal => rw [hb] at e1; simp [Res.value, Res.map] at e1
            | panic => rw [hb] at e1; simp [Res.value, Res.map] at e1
            | outOfFuel => rw [hb] at e1; simp [Res.value, Res.map] at e1
          · intro d2 s2 e
            simp only [Res.ok.injEq, Prod.mk.injEq] at e
            rw [← e.2]
            have hl : s.heap.length < s1.heap.length := lt_of_lt_of_le hlen hpost.2
            exact ⟨WF_store hpost.1 _ _ hl, le_of_lt hl⟩
        | fatal =>
          rw [hr] at e1
          refine ⟨?_, fun d s1 e => by cases e⟩
          cases hb : ruleBytesWith env (fun t => digestOf env fuel t targetMap) r targetMap <;>
            rw [hb] at e1 <;> simp [Res.value, Res.map] at e1 ⊢
        | panic =>
          rw [hr] at e1
          refine ⟨?_, fun d s1 e => by cases e⟩
          cases hb : ruleBytesWith env (fun t => digestOf env fuel t targetMap) r targetMap <;>
            rw [hb] at e1 <;> simp [Res.value, Res.map] at e1 ⊢
        | outOfFuel =>
          rw [hr] at e1
          refine ⟨?_, fun d s1 e => by cases e⟩
          cases hb : ruleBytesWith env (fun t => digestOf env fuel t targetMap) r targetMap <;>
            rw [hb] at e1 <;> simp [Res.value, Res.map] at e1 ⊢
      | sourceFile f =>
        obtain ⟨e1, e2, e3, e4⟩ := CalculateHashForSourceFile_spec env f _ hs0.2
        simp only [digestOf]
        constructor
        · simp [Res.value, Res.map, e1]
        · intro d s1 e
          simp only [Res.ok.injEq, Prod.mk.injEq] at e
          rw [← e.2]
          have hwf : (CalculateHashForSourceFile env f
              { s with heap := s.heap ++ [label] }).2.WF env := by
            refine ⟨?_, e2⟩
            intro p hp
            rw [e4] at hp
            rw [e3]
            exact hs0.1 p hp
          have hl : s.heap.length < (CalculateHashForSourceFile env f
              { s with heap := s.heap ++ [label] }).2.heap.length := by
            rw [e3]; exact hlen
          exact ⟨WF_store hwf _ _ hl, le_of_lt hl⟩
      | generatedFile g =>
        obtain ⟨e1, e2⟩ := ih label (targetMap g.generatingRule) _ hs0
        simp only [digestOf]
        cases hr : CalculateHash env fuel label (targetMap g.generatingRule) targetMap
            { s with heap := s.heap ++ [label] } with
        | ok p =>
          obtain ⟨d, s1⟩ := p
          rw [hr] at e1
          have hpost := e2 d s1 hr
          simp only
          constructor
          · simp only [Res.value, Res.map] at e1
            rw [← e1]
            rfl
          · intro d2 s2 e
            simp only [Res.ok.injEq, Prod.mk.injEq] at e
            rw [← e.2]
            have hl : s.heap.length < s1.heap.length := lt_of_lt_of_le hlen hpost.2
            exact ⟨WF_store hpost.1 _ _ hl, le_of_lt hl⟩
        | fatal =>
          rw [hr] at e1
          simp only [Res.value, Res.map] at e1
          exact ⟨by rw [← e1]; rfl, fun d s1 e => by cases e⟩
        | panic =>
          rw [hr] at e1
          simp only [Res.value, Res.map] at e1
          exact ⟨by rw [← e1]; rfl, fun d s1 e => by cases e⟩
        | outOfFuel =>
          rw [hr] at e1
          simp only [Res.value, Res.map] at e1
          exact ⟨by rw [← e1]; rfl, fun d s1 e => by cases e⟩
      | packageGroup p =>
        simp only [digestOf]
        refine ⟨rfl, ?_⟩
        intro d s1 e
        simp only [Res.ok.injEq, Prod.mk.injEq] at e
        rw [← e.2]
        have hs1 : (State.emit { s with heap := s.heap ++ [label] } (.logSkipped label)).WF env :=
          hs0
        exact ⟨WF_store hs1 _ _ hlen, le_of_lt hlen⟩
      | other k =>
        simp only [digestOf]
        refine ⟨rfl, ?_⟩
        intro d s1 e
        simp only [Res.ok.injEq, Prod.mk.injEq] at e
        rw [← e.2]
        have hs1 : (State.emit { s with heap := s.heap ++ [label] } (.logSkipped label)).WF env :=
          hs0
        exact ⟨WF_store hs1 _ _ hlen, le_of_lt hlen⟩

theorem Reachable.wf {env : Env} {s : State} (h : Reachable env s) : s.WF env := by
  induction h with
  | init => exact State.init_WF env
  | call fuel label target targetMap _ hc ih =>
    exact ((CalculateHash_refines env targetMap fuel label target _ ih).2 _ _ hc).1

/-- On a state that satisfies the invariants the digest returned is the state-free one. -/
theorem CalculateHash_value (env : Env) (fuel : Nat) (label : String) (target : Option Target)
    (targetMap : TargetMap) (s : State) (hs : s.WF env) :
    (CalculateHash env fuel label target targetMap s).value = digestOf env fuel target targetMap :=
  (CalculateHash_refines env targetMap fuel label target s hs).1

theorem CalculateHashForRule_value (env : Env) (fuel : Nat) (rule : Rule)
    (targetMap : TargetMap) (s : State) (hs : s.WF env) :
    (CalculateHashForRule env fuel rule targetMap s).value =
      (ruleBytes env fuel rule targetMap).map env.hash :=
  (CalculateHashForRuleWith_spec (CalculateHash_refines env targetMap fuel) rule s hs).1

theorem CalculateHash_ok_digestOf {env : Env} {fuel : Nat} {label : String}
    {target : Option Target} {targetMap : TargetMap} {s s1 : State} {d : Bytes}
    (hs : s.WF env) (h : CalculateHash env fuel label target targetMap s = .ok (d, s1)) :
    digestOf env fuel target targetMap = .ok d := by
  rw [← CalculateHash_value env fuel label target targetMap s hs, Res.value_ok h]

/-- Enough budget for the state-free digest is enough for the program, on any state that
satisfies the invariants. -/
theorem CalculateHash_returns {env : Env} {fuel : Nat} {target : Option Target}
    {targetMap : TargetMap} {d : Bytes} (h : digestOf env fuel target targetMap = .ok d)
    (label : String) (s : State) (hs : s.WF env) :
    ∃ s1, CalculateHash env fuel label target targetMap s = .ok (d, s1) ∧ s1.WF env := by
  have hv := CalculateHash_value env fuel label target targetMap s hs
  rw [h] at hv
  obtain ⟨s1, e⟩ := Res.value_eq_ok hv
  exact ⟨s1, e, ((CalculateHash_refines env targetMap fuel label target s hs).2 d s1 e).1⟩

theorem Res.map_ne_outOfFuel {α β : Type} {f : α → β} {r : Res α} (h : r ≠ .outOfFuel) :
    r.map f ≠ .outOfFuel := by
  cases r <;> simp [Res.map] at h ⊢

theorem Res.map_eq_outOfFuel {α β : Type} {f : α → β} {r : Res α}
    (h : r.map f = .outOfFuel) : r = .outOfFuel := by
  cases r <;> simp [Res.map] at h ⊢

theorem inputDigests_mono {c1 c2 : Option Target → Res Bytes} {targetMap : TargetMap}
    (hc : ∀ t, c1 t ≠ .outOfFuel → c2 t = c1 t) :
    ∀ (inputs : List String) (h : Bytes),
      inputDigests c1 targetMap inputs h ≠ .outOfFuel →
      inputDigests c2 targetMap inputs h = inputDigests c1 targetMap inputs h := by
  intro inputs
  induction inputs with
  | nil => intro h _; rfl
  | cons i rest ih =>
    intro h hne
    cases hti : targetMap i with
    | none =>
      simp only [inputDigests, hti] at hne ⊢
      exact ih h hne
    | some t =>
      simp only [inputDigests, hti] at hne ⊢
      cases h1 : c1 (some t) with
      | ok d =>
        rw [h1] at hne
        rw [hc (some t) (by rw [h1]; simp), h1]
        exact ih _ hne
      | fatal => rw [hc (some t) (by rw [h1]; simp), h1]
      | panic => rw [hc (some t) (by rw [h1]; simp), h1]
      | outOfFuel => rw [h1] at hne; exact absurd rfl hne

theorem digestOf_succ (env : Env) (targetMap : TargetMap) :
    ∀ (fuel : Nat) (t : Option Target), digestOf env fuel t targetMap ≠ .outOfFuel →
      digestOf env (fuel + 1) t targetMap = digestOf env fuel t targetMap := by
  intro fuel
  induction fuel with
  | zero => intro t h; exact absurd rfl h
  | succ fuel ih =>
    intro t h
    cases t with
    | none => rfl
    | some t =>
      cases t with
      | rule r =>
        simp only [digestOf] at h ⊢
        have hb : ruleBytesWith env (fun t => digestOf env fuel t targetMap) r targetMap
            ≠ .outOfFuel := fun e => h (by rw [e]; rfl)
        have : ruleBytesWith env (fun t => digestOf env (fuel + 1) t targetMap) r targetMap =
            ruleBytesWith env (fun t => digestOf env fuel t targetMap) r targetMap := by
          unfold ruleBytesWith at hb ⊢
          cases hw : writeAttributes env (GetRuleAttributes r) [] with
          | none => rfl
          | some b =>
            rw [hw] at hb
            exact inputDigests_mono (fun t ht => ih t ht) _ _ hb
        rw [this]
      | sourceFile f => rfl
      | generatedFile g =>
        simp only [digestOf] at h ⊢
        have hb : digestOf env fuel (targetMap g.generatingRule) targetMap ≠ .outOfFuel :=
          fun e => h (by rw [e]; rfl)
        rw [ih _ hb]
      | packageGroup p => rfl
      | other k => rfl

theorem digestOf_mono (env : Env) (targetMap : TargetMap) (fuel k : Nat) (t : Option Target)
    (h : digestOf env fuel t targetMap ≠ .outOfFuel) :
    digestOf env (fuel + k) t targetMap = digestOf env fuel t targetMap := by
  induction k with
  | zero => rfl
  | succ k ih =>
    rw [← Nat.add_assoc, digestOf_succ env targetMap (fuel + k) t (by rw [ih]; exact h), ih]

theorem digestOf_le (env : Env) (targetMap : TargetMap) {fuel1 fuel2 : Nat} (hle : fuel1 ≤ fuel2)
    (t : Option Target) (h : digestOf env fuel1 t targetMap ≠ .outOfFuel) :
    digestOf env fuel2 t targetMap = digestOf env fuel1 t targetMap := by
  obtain ⟨k, rfl⟩ := Nat.exists_eq_add_of_le hle
  exact digestOf_mono env targetMap fuel1 k t h

/-- Two budgets that both suffice give the same digest. -/
theorem digestOf_agree (env : Env) (targetMap : TargetMap) (fuel1 fuel2 : Nat)
    (t : Option Target) (d1 d2 : Bytes)
    (h1 : digestOf env fuel1 t targetMap = .ok d1) (h2 : digestOf env fuel2 t targetMap = .ok d2) :
    d1 = d2 := by
  rcases Nat.le_total fuel1 fuel2 with hle | hle
  · have := digestOf_le env targetMap hle t (by rw [h1]; simp)
    rw [h1, h2] at this
    exact (Res.ok.inj this).symm
  · have := digestOf_le env targetMap hle t (by rw [h2]; simp)
    rw [h1, h2] at this
    exact Res.ok.inj this

/-- The first call for `//:A` in the scenario returns `[26, 102]` and leaves `demoAfterA`. -/
theorem demo_first_call :
    CalculateHash demoEnv 2 "//:A" (demoMap "//:A") demoMap State.init =
      .ok ([26, 102], demoAfterA) := by
  decide

/-- C1 (the code at the failing input): in the scenario graph, `CalculateHash` is called for
`//:A` a second time, in the state the first call left. The second call returns the same digest
but does not find it in `hashedTargets`: it enters `CalculateHashForRule` and
`CalculateHashForSourceFile` again, reads `/ws/x.go` again, and stores the digests under two new
keys, so that the map now holds four entries for two labels. -/
theorem C1_second_call_recomputes :
    ∃ s2, CalculateHash demoEnv 2 "//:A" (demoMap "//:A") demoMap State.init =
        .ok ([26, 102], demoAfterA) ∧
      demoAfterA.hashedTargets = [(0, [26, 102]), (1, [35, 118])] ∧
      CalculateHash demoEnv 2 "//:A" (demoMap "//:A") demoMap demoAfterA = .ok ([26, 102], s2) ∧
      s2.trace = demoAfterA.trace ++
        [.calcRule "//:A", .calcSource "//:x.go", .readFile "/ws/x.go"] ∧
      s2.heap = ["//:A", "//:x.go", "//:A", "//:x.go"] ∧
      s2.hashedTargets = [(2, [26, 102]), (3, [35, 118]), (0, [26, 102]), (1, [35, 118])] := by
  refine ⟨_, by decide, rfl, rfl, ?_, ?_, ?_⟩ <;> decide

/-- C2: for a fixed target map and filesystem, the digest `CalculateHash` returns for a label does
not depend on the state the run is in. From any two states the run can reach, the call ends the
same way for every recursion budget, and whenever it returns from both, under whatever budgets,
the bytes are equal. -/
theorem C2_determinism (env : Env) (targetMap : TargetMap) (label : String) (s1 s2 : State)
    (h1 : Reachable env s1) (h2 : Reachable env s2) :
    (∀ fuel, (CalculateHash env fuel label (targetMap label) targetMap s1).value =
        (CalculateHash env fuel label (targetMap label) targetMap s2).value) ∧
    (∀ fuel1 fuel2 d1 d2 t1 t2,
      CalculateHash env fuel1 label (targetMap label) targetMap s1 = .ok (d1, t1) →
      CalculateHash env fuel2 label (targetMap label) targetMap s2 = .ok (d2, t2) →
      d1 = d2) := by
  constructor
  · intro fuel
    rw [CalculateHash_value env fuel label _ targetMap s1 h1.wf,
      CalculateHash_value env fuel label _ targetMap s2 h2.wf]
  · intro fuel1 fuel2 d1 d2 t1 t2 e1 e2
    have v1 := CalculateHash_value env fuel1 label (targetMap label) targetMap s1 h1.wf
    have v2 := CalculateHash_value env fuel2 label (targetMap label) targetMap s2 h2.wf
    rw [Res.value_ok e1] at v1
    rw [Res.value_ok e2] at v2
    exact digestOf_agree env targetMap fuel1 fuel2 _ d1 d2 v1.symm v2.symm

/-- C2 at the scenario: the call for `//:A` from the initial state and from the state after
a first call. -/
theorem C2_determinism_witness :
    Reachable demoEnv State.init ∧ Reachable demoEnv demoAfterA ∧
    (CalculateHash demoEnv 2 "//:A" (demoMap "//:A") demoMap State.init).value =
      (CalculateHash demoEnv 2 "//:A" (demoMap "//:A") demoMap demoAfterA).value :=
  ⟨.init, .call 2 "//:A" (demoMap "//:A") demoMap .init demo_first_call,
    (C2_determinism demoEnv demoMap "//:A" State.init demoAfterA .init
      (.call 2 "//:A" (demoMap "//:A") demoMap .init demo_first_call)).1 2⟩

theorem writeAttributes_eq_some {env : Env} :
    ∀ (attrs : List Attribute) (h b : Bytes), writeAttributes env attrs h = some b →
      ∃ bs : List Bytes, List.Forall₂ (fun a x => env.compactText a = some x) attrs bs ∧
        b = h ++ bs.flatten := by
  intro attrs
  induction attrs with
  | nil =>
    intro h b e
    simp only [writeAttributes, Option.some.injEq] at e
    exact ⟨[], List.Forall₂.nil, by simp [e]⟩
  | cons a rest ih =>
    intro h b e
    simp only [writeAttributes] at e
    cases hc : env.compactText a with
    | none => rw [hc] at e; cases e
    | some x =>
      rw [hc] at e
      obtain ⟨bs, hbs, hb⟩ := ih _ _ e
      exact ⟨x :: bs, List.Forall₂.cons hc hbs, by simp [hb]⟩

theorem inputDigests_eq_ok {c : Option Target → Res Bytes} {targetMap : TargetMap} :
    ∀ (inputs : List String) (h b : Bytes), inputDigests c targetMap inputs h = .ok b →
      ∃ ds : List Bytes,
        List.Forall₂ (fun i d => c (targetMap i) = .ok d)
          (inputs.filter (fun i => (targetMap i).isSome)) ds ∧
        b = h ++ ds.flatten := by
  intro inputs
  induction inputs with
  | nil =>
    intro h b e
    simp only [inputDigests, Res.ok.injEq] at e
    exact ⟨[], by simp, by simp [e]⟩
  | cons i rest ih =>
    intro h b e
    cases hti : targetMap i with
    | none =>
      simp only [inputDigests, hti] at e
      obtain ⟨ds, hds, hb⟩ := ih _ _ e
      exact ⟨ds, by simpa [List.filter, hti] using hds, hb⟩
    | some t =>
      simp only [inputDigests, hti] at e
      cases hc : c (some t) with
      | ok d =>
        rw [hc] at e
        obtain ⟨ds, hds, hb⟩ := ih _ _ e
        refine ⟨d :: ds, ?_, by simp [hb]⟩
        simp only [List.filter, hti, Option.isSome_some]
        exact List.Forall₂.cons (by rw [hti]; exact hc) hds
      | fatal => rw [hc] at e; cases e
      | panic => rw [hc] at e; cases e
      | outOfFuel => rw [hc] at e; cases e

theorem writeInputs_calls {env : Env} {fuel : Nat} {targetMap : TargetMap} :
    ∀ (inputs : List String) (h : Bytes) (s : State) (h1 : Bytes) (s1 : State),
      writeInputs (CalculateHash env fuel) targetMap inputs h s = .ok (h1, s1) →
      ∃ ds, InputCalls env fuel targetMap inputs s ds s1 ∧ h1 = h ++ ds.flatten := by
  intro inputs
  induction inputs with
  | nil =>
    intro h s h1 s1 e
    simp only [writeInputs, Res.ok.injEq, Prod.mk.injEq] at e
    obtain ⟨e1, e2⟩ := e
    subst e1; subst e2
    exact ⟨[], .done s, by simp⟩
  | cons i rest ih =>
    intro h s h1 s1 e
    cases hti : targetMap i with
    | none =>
      simp only [writeInputs, hti] at e
      obtain ⟨ds, hds, hh⟩ := ih _ _ _ _ e
      exact ⟨ds, .absent hti hds, hh⟩
    | some t =>
      simp only [writeInputs, hti] at e
      cases hc : CalculateHash env fuel i (some t) targetMap s with
      | ok p =>
        obtain ⟨d, s2⟩ := p
        rw [hc] at e
        obtain ⟨ds, hds, hh⟩ := ih _ _ _ _ e
        refine ⟨d :: ds, .present (by rw [hti]; rfl) (by rw [hti]; exact hc) hds, ?_⟩
        rw [hh]
        simp
      | fatal => rw [hc] at e; cases e
      | panic => rw [hc] at e; cases e
      | outOfFuel => rw [hc] at e; cases e

theorem InputCalls.digests {env : Env} {fuel : Nat} {targetMap : TargetMap}
    {inputs : List String} {s s1 : State} {ds : List Bytes}
    (h : InputCalls env fuel targetMap inputs s ds s1) (hs : s.WF env) :
    List.Forall₂ (fun i di => digestOf env fuel (targetMap i) targetMap = .ok di)
      (inputs.filter (fun i => (targetMap i).isSome)) ds ∧ s1.WF env := by
  induction h with
  | done s => exact ⟨by simp, hs⟩
  | @absent i rest s s1 ds hti _ ih =>
    have hs1 : (s.emit (.logNotFound i)).WF env := hs
    obtain ⟨h1, h2⟩ := ih hs1
    exact ⟨by simpa [List.filter, hti] using h1, h2⟩
  | @present i rest s s1 s2 d ds hp hc _ ih =>
    have hpost := (CalculateHash_refines env targetMap fuel i (targetMap i) s hs).2 d s1 hc
    obtain ⟨h1, h2⟩ := ih hpost.1
    refine ⟨?_, h2⟩
    simp only [List.filter, hp]
    exact List.Forall₂.cons (CalculateHash_ok_digestOf hs hc) h1

/-- C3: when `CalculateHashForRule` returns, its result is the hash of the serializations of
`GetRuleAttributes(rule)` in order, followed by the digests `CalculateHash` returns for the
inputs of `rule.RuleInput` that are present in the target map, in order and once per
occurrence; absent inputs add nothing. This holds in every state that satisfies the two
invariants of the run, so also in the state inside a call of `CalculateHash` where the program
calls `CalculateHashForRule`. The digests `ds` are those of the nested calls the loop makes
(`InputCalls`), each in the state the previous one left, and each is also the digest
`CalculateHash` returns for that input in every state that satisfies the invariants. -/
theorem C3_rule_hash_formula (env : Env) (fuel : Nat) (rule : Rule) (targetMap : TargetMap)
    (s : State) (d : Bytes) (hs : s.WF env)
    (h : (CalculateHashForRule env fuel rule targetMap s).value = .ok d) :
    ∃ (attrBytes ds : List Bytes) (s1 : State),
      List.Forall₂ (fun a x => env.compactText a = some x) (GetRuleAttributes rule) attrBytes ∧
      InputCalls env fuel targetMap rule.ruleInput (s.emit (.calcRule rule.name)) ds s1 ∧
      List.Forall₂
        (fun i di => ∀ s0, s0.WF env →
          (CalculateHash env fuel i (targetMap i) targetMap s0).value = .ok di)
        (rule.ruleInput.filter (fun i => (targetMap i).isSome)) ds ∧
      d = env.hash (attrBytes.flatten ++ ds.flatten) := by
  obtain ⟨s1, e⟩ := Res.value_eq_ok h
  unfold CalculateHashForRule CalculateHashForRuleWith ruleHashInput at e
  cases hw : writeAttributes env (GetRuleAttributes rule) [] with
  | none => rw [hw] at e; cases e
  | some h0 =>
    rw [hw] at e
    simp only at e
    cases hi : writeInputs (CalculateHash env fuel) targetMap rule.ruleInput h0
        (s.emit (.calcRule rule.name)) with
    | ok p =>
      obtain ⟨h1, s2⟩ := p
      rw [hi] at e
      simp only [Res.ok.injEq, Prod.mk.injEq] at e
      obtain ⟨bs, hbs, e0⟩ := writeAttributes_eq_some _ _ _ hw
      obtain ⟨ds, hcalls, e1⟩ := writeInputs_calls _ _ _ _ _ hi
      have hs0 : (s.emit (.calcRule rule.name)).WF env := hs
      refine ⟨bs, ds, s2, hbs, hcalls, ?_, ?_⟩
      · refine (hcalls.digests hs0).1.imp ?_
        intro i di hdi s0 hs0
        rw [CalculateHash_value env fuel i _ targetMap s0 hs0]
        exact hdi
      · rw [← e.1, e1, e0]
        simp
    | fatal => rw [hi] at e; cases e
    | panic => rw [hi] at e; cases e
    | outOfFuel => rw [hi] at e; cases e

/-- The states of the scenario inside the first top-level call satisfy the invariants. -/
theorem demoInCall_WF (env : Env) : demoInCall.WF env ∧ demoInRule.WF env := by
  refine ⟨⟨?_, ?_⟩, ⟨?_, ?_⟩⟩ <;> intro p hp <;> cases hp

/-- C3 at the scenario: `CalculateHashForRule` is called for the rule `//:A` inside the
top-level call for `//:A` and returns `[173, 210]`. -/
theorem C3_rule_hash_formula_witness :
    demoInCall.WF demoEnv ∧
    (CalculateHashForRule demoEnv 1 demoA demoMap demoInCall).value = .ok [173, 210] ∧
    ∃ (attrBytes ds : List Bytes) (s1 : State),
      List.Forall₂ (fun a x => demoEnv.compactText a = some x) (GetRuleAttributes demoA)
        attrBytes ∧
      InputCalls demoEnv 1 demoMap demoA.ruleInput (demoInCall.emit (.calcRule demoA.name)) ds
        s1 ∧
      List.Forall₂
        (fun i di => ∀ s0, s0.WF demoEnv →
          (CalculateHash demoEnv 1 i (demoMap i) demoMap s0).value = .ok di)
        (demoA.ruleInput.filter (fun i => (demoMap i).isSome)) ds ∧
      [173, 210] = demoEnv.hash (attrBytes.flatten ++ ds.flatten) :=
  ⟨(demoInCall_WF demoEnv).1, by decide,
    C3_rule_hash_formula demoEnv 1 demoA demoMap demoInCall [173, 210]
      (demoInCall_WF demoEnv).1 (by decide)⟩

theorem MapSim.isSome_eq {tm1 tm2 : TargetMap} (h : MapSim tm1 tm2) (l : String) :
    (tm1 l).isSome = (tm2 l).isSome := by
  rcases h l with e | ⟨r1, r2, e1, e2, _, _⟩
  · rw [e]
  · rw [e1, e2]; rfl

theorem MapSim.presentInputs_eq {tm1 tm2 : TargetMap} (h : MapSim tm1 tm2)
    (inputs : List String) : presentInputs tm1 inputs = presentInputs tm2 inputs := by
  unfold presentInputs
  congr 1
  funext i
  exact h.isSome_eq i

theorem MapSim.self (tm : TargetMap) : MapSim tm tm := fun _ => Or.inl rfl

theorem inputDigests_present (c : Option Target → Res Bytes) (targetMap : TargetMap) :
    ∀ (inputs : List String) (h : Bytes),
      inputDigests c targetMap inputs h =
        inputDigests c targetMap (presentInputs targetMap inputs) h := by
  intro inputs
  induction inputs with
  | nil => intro h; rfl
  | cons i rest ih =>
    intro h
    cases hti : targetMap i with
    | none =>
      have : presentInputs targetMap (i :: rest) = presentInputs targetMap rest := by
        simp [presentInputs, List.filter, hti]
      rw [this]
      simp only [inputDigests, hti]
      exact ih h
    | some t =>
      have : presentInputs targetMap (i :: rest) = i :: presentInputs targetMap rest := by
        simp [presentInputs, List.filter, hti]
      rw [this]
      simp only [inputDigests, hti]
      cases c (some t) with
      | ok d => exact ih _
      | fatal => rfl
      | panic => rfl
      | outOfFuel => rfl

theorem inputDigests_congr {c1 c2 : Option Target → Res Bytes} {tm1 tm2 : TargetMap}
    (hp : ∀ l, (tm1 l).isSome = (tm2 l).isSome) (hc : ∀ l, c1 (tm1 l) = c2 (tm2 l)) :
    ∀ (inputs : List String) (h : Bytes),
      inputDigests c1 tm1 inputs h = inputDigests c2 tm2 inputs h := by
  intro inputs
  induction inputs with
  | nil => intro h; rfl
  | cons i rest ih =>
    intro h
    have hpi := hp i
    have hci := hc i
    cases h1 : tm1 i with
    | none =>
      cases h2 : tm2 i with
      | none => simp only [inputDigests, h1, h2]; exact ih h
      | some t2 => rw [h1, h2] at hpi; cases hpi
    | some t1 =>
      cases h2 : tm2 i with
      | none => rw [h1, h2] at hpi; cases hpi
      | some t2 =>
        rw [h1, h2] at hci
        simp only [inputDigests, h1, h2, hci]
        cases c2 (some t2) with
        | ok d => exact ih _
        | fatal => rfl
        | panic => rfl
        | outOfFuel => rfl

theorem ruleBytesWith_congr {env : Env} (c1 c2 : Option Target → Res Bytes) {tm1 tm2 : TargetMap}
    (hp : ∀ l, (tm1 l).isSome = (tm2 l).isSome) (hc : ∀ l, c1 (tm1 l) = c2 (tm2 l))
    {r1 r2 : Rule} (ha : GetRuleAttributes r1 = GetRuleAttributes r2)
    (hi : presentInputs tm1 r1.ruleInput = presentInputs tm2 r2.ruleInput) :
    ruleBytesWith env c1 r1 tm1 = ruleBytesWith env c2 r2 tm2 := by
  unfold ruleBytesWith
  rw [ha]
  cases writeAttributes env (GetRuleAttributes r2) [] with
  | none => rfl
  | some h =>
    simp only
    exact (inputDigests_present c1 tm1 r1.ruleInput h).trans
      ((inputDigests_congr hp hc _ h).trans
        ((congrArg (fun l => inputDigests c2 tm2 l h) hi).trans
          (inputDigests_present c2 tm2 r2.ruleInput h).symm))

theorem digestOf_congr (env : Env) {tm1 tm2 : TargetMap} (hm : MapSim tm1 tm2) :
    ∀ (fuel : Nat) (t1 t2 : Option Target), SameHashInput tm1 tm2 t1 t2 →
      digestOf env fuel t1 tm1 = digestOf env fuel t2 tm2 := by
  intro fuel
  induction fuel with
  | zero => intro t1 t2 _; rfl
  | succ fuel ih =>
    intro t1 t2 ht
    have hc : ∀ l, (fun t => digestOf env fuel t tm1) (tm1 l) =
        (fun t => digestOf env fuel t tm2) (tm2 l) := fun l => ih _ _ (hm l)
    rcases ht with e | ⟨r1, r2, e1, e2, ha, hi⟩
    · subst e
      cases t1 with
      | none => rfl
      | some t =>
        cases t with
        | rule r =>
          simp only [digestOf]
          rw [ruleBytesWith_congr (fun t => digestOf env fuel t tm1) (fun t => digestOf env fuel t tm2)
            hm.isSome_eq hc rfl (hm.presentInputs_eq r.ruleInput)]
        | sourceFile f => rfl
        | generatedFile g =>
          simp only [digestOf]
          rw [ih _ _ (hm g.generatingRule)]
        | packageGroup p => rfl
        | other k => rfl
    · subst e1; subst e2
      simp only [digestOf]
      rw [ruleBytesWith_congr (fun t => digestOf env fuel t tm1) (fun t => digestOf env fuel t tm2)
        hm.isSome_eq hc ha hi]

theorem ruleBytes_congr (env : Env) {tm1 tm2 : TargetMap} (hm : MapSim tm1 tm2) (fuel : Nat)
    {r1 r2 : Rule} (ha : GetRuleAttributes r1 = GetRuleAttributes r2)
    (hi : presentInputs tm1 r1.ruleInput = presentInputs tm2 r2.ruleInput) :
    ruleBytes env fuel r1 tm1 = ruleBytes env fuel r2 tm2 :=
  ruleBytesWith_congr _ _ hm.isSome_eq (fun l => digestOf_congr env hm fuel _ _ (hm l)) ha hi

theorem ignored_iff (n : String) :
    (ignoredAttributes.lookup n).getD false = true ↔ n ∈ ignoredNames := by
  unfold ignoredAttributes ignoredNames
  by_cases h1 : n = "build_file"
  · subst h1; simp [List.lookup]
  · by_cases h2 : n = "generator_location"
    · subst h2; decide
    · by_cases h3 : n = "path"
      · subst h3; decide
      · have e1 : (n == "build_file") = false := by simpa using h1
        have e2 : (n == "generator_location") = false := by simpa using h2
        have e3 : (n == "path") = false := by simpa using h3
        simp [List.lookup, e1, e2, e3, h1, h2, h3]

theorem foldl_keep_eq_filter (p : Attribute → Bool) :
    ∀ (l acc : List Attribute),
      l.foldl (fun result a => if p a then result else result ++ [a]) acc =
        acc ++ l.filter (fun a => !p a) := by
  intro l
  induction l with
  | nil => intro acc; simp
  | cons a rest ih =>
    intro acc
    simp only [List.foldl_cons]
    rw [ih]
    cases hp : p a <;> simp [List.filter, hp]

theorem GetRuleAttributes_eq_filter (rule : Rule) :
    GetRuleAttributes rule =
      rule.attributes.filter (fun a => !(ignoredAttributes.lookup a.name).getD false) := by
  unfold GetRuleAttributes
  have := foldl_keep_eq_filter (fun a => (ignoredAttributes.lookup a.name).getD false)
    rule.attributes []
  simpa using this

theorem ValuesReplaced.kept_eq {attrs1 attrs2 : List Attribute}
    (h : ValuesReplaced attrs1 attrs2) :
    attrs1.filter (fun a => !(ignoredAttributes.lookup a.name).getD false) =
      attrs2.filter (fun a => !(ignoredAttributes.lookup a.name).getD false) := by
  unfold ValuesReplaced at h
  induction h with
  | nil => rfl
  | @cons a1 a2 l1 l2 hh _ ih =>
    obtain ⟨hn, hv⟩ := hh
    cases hig : (ignoredAttributes.lookup a1.name).getD false with
    | true =>
      have hig2 : (ignoredAttributes.lookup a2.name).getD false = true := by rw [← hn]; exact hig
      simp only [List.filter, hig, hig2, Bool.not_true]
      exact ih
    | false =>
      have hig2 : (ignoredAttributes.lookup a2.name).getD false = false := by
        rw [← hn]; exact hig
      have hval : a1.value = a2.value := by
        by_contra hne
        have := (ignored_iff a1.name).2 (hv hne)
        rw [hig] at this
        cases this
      have ha : a1 = a2 := by
        cases a1; cases a2
        simp only at hn hval
        rw [hn, hval]
      simp only [List.filter, hig, hig2, Bool.not_false]
      rw [ha, ih]

theorem MapSim.update {tm : TargetMap} {label : String} {r1 r2 : Rule}
    (hr : tm label = some (.rule r1)) (ha : GetRuleAttributes r1 = GetRuleAttributes r2)
    (hi : presentInputs tm r1.ruleInput = presentInputs tm r2.ruleInput) :
    MapSim tm (Function.update tm label (some (.rule r2))) := by
  have hp : ∀ l, (tm l).isSome = (Function.update tm label (some (.rule r2)) l).isSome := by
    intro l
    by_cases hl : l = label
    · subst hl; rw [Function.update_same, hr]; rfl
    · rw [Function.update_noteq hl]
  intro l
  by_cases hl : l = label
  · subst hl
    right
    refine ⟨r1, r2, hr, by rw [Function.update_same], ha, ?_⟩
    rw [hi]
    unfold presentInputs
    congr 1
    funext i
    exact hp i
  · left
    rw [Function.update_noteq hl]

theorem presentInputs_remove_absent {tm : TargetMap} (pre post : List String) {i : String}
    (hi : tm i = none) :
    presentInputs tm (pre ++ i :: post) = presentInputs tm (pre ++ post) := by
  simp [presentInputs, List.filter_append, List.filter, hi]

/-- C4: replacing the values of attributes named `build_file`, `generator_location` or `path` on
a rule of the graph leaves the rule's digest from `CalculateHash` unchanged: the call in the
changed graph ends exactly as the call in the original graph for every recursion budget, and
whenever both return, the digests are equal. (No acyclicity is needed.) -/
theorem C4_attribute_exclusion (env : Env) (targetMap : TargetMap) (label : String) (r : Rule)
    (attrs2 : List Attribute) (s1 s2 : State)
    (hr : targetMap label = some (.rule r)) (ha : ValuesReplaced r.attributes attrs2)
    (h1 : Reachable env s1) (h2 : Reachable env s2) :
    (∀ fuel,
      (CalculateHash env fuel label (some (.rule { r with attributes := attrs2 }))
        (Function.update targetMap label (some (.rule { r with attributes := attrs2 }))) s2).value =
      (CalculateHash env fuel label (some (.rule r)) targetMap s1).value) ∧
    (∀ fuel1 fuel2 d1 d2 t1 t2,
      CalculateHash env fuel1 label (some (.rule r)) targetMap s1 = .ok (d1, t1) →
      CalculateHash env fuel2 label (some (.rule { r with attributes := attrs2 }))
        (Function.update targetMap label (some (.rule { r with attributes := attrs2 }))) s2 =
        .ok (d2, t2) →
      d1 = d2) := by
  have hattr : GetRuleAttributes r = GetRuleAttributes { r with attributes := attrs2 } := by
    rw [GetRuleAttributes_eq_filter, GetRuleAttributes_eq_filter]
    exact ha.kept_eq
  have hm : MapSim targetMap
      (Function.update targetMap label (some (.rule { r with attributes := attrs2 }))) :=
    MapSim.update hr hattr rfl
  have hd : ∀ fuel, digestOf env fuel (some (.rule r)) targetMap =
      digestOf env fuel (some (.rule { r with attributes := attrs2 }))
        (Function.update targetMap label (some (.rule { r with attributes := attrs2 }))) :=
    fun fuel => digestOf_congr env hm fuel _ _ (Or.inr ⟨r, _, rfl, rfl, hattr, by
      rw [hm.presentInputs_eq]⟩)
  constructor
  · intro fuel
    rw [CalculateHash_value env fuel label _ _ s2 h2.wf,
      CalculateHash_value env fuel label _ _ s1 h1.wf, hd]
  · intro fuel1 fuel2 d1 d2 t1 t2 e1 e2
    have v1 := CalculateHash_ok_digestOf h1.wf e1
    have v2 := CalculateHash_ok_digestOf h2.wf e2
    rw [← hd] at v2
    exact digestOf_agree env targetMap fuel1 fuel2 _ d1 d2 v1 v2

/-- C4 at the scenario: the `build_file` value of `//:B` is replaced. -/
theorem C4_attribute_exclusion_witness :
    demoMapB "//:B" = some (.rule demoB) ∧
    ValuesReplaced demoB.attributes
      [⟨"build_file", asciiBytes "/elsewhere/BUILD"⟩, ⟨"srcs", asciiBytes "x.go"⟩] ∧
    Reachable demoEnv State.init ∧ Reachable demoEnv demoAfterA ∧
    (CalculateHash demoEnv 2 "//:B"
        (some (.rule { demoB with attributes :=
          [⟨"build_file", asciiBytes "/elsewhere/BUILD"⟩, ⟨"srcs", asciiBytes "x.go"⟩] }))
        (Function.update demoMapB "//:B" (some (.rule { demoB with attributes :=
          [⟨"build_file", asciiBytes "/elsewhere/BUILD"⟩, ⟨"srcs", asciiBytes "x.go"⟩] })))
        demoAfterA).value =
      (CalculateHash demoEnv 2 "//:B" (some (.rule demoB)) demoMapB State.init).value :=
  have hv : ValuesReplaced demoB.attributes
      [⟨"build_file", asciiBytes "/elsewhere/BUILD"⟩, ⟨"srcs", asciiBytes "x.go"⟩] :=
    List.Forall₂.cons ⟨rfl, fun _ => by decide⟩
      (List.Forall₂.cons ⟨rfl, fun hne => absurd rfl hne⟩ List.Forall₂.nil)
  have hre : Reachable demoEnv demoAfterA :=
    .call 2 "//:A" (demoMap "//:A") demoMap .init demo_first_call
  ⟨rfl, hv, .init, hre,
    (C4_attribute_exclusion demoEnv demoMapB "//:B" demoB _ State.init demoAfterA rfl hv
      .init hre).1 2⟩

/-- C5: removing from `rule.RuleInput` an entry whose label is absent from the target map does
not change what `CalculateHashForRule` returns, and so does not change the rule's digest from
`CalculateHash`, whether the target map still holds the old rule or holds the new one. Each
pair of calls ends the same way for every recursion budget. -/
theorem C5_dangling_input_removal (env : Env) (targetMap : TargetMap) (label : String) (r : Rule)
    (pre post : List String) (i : String) (s1 s2 : State)
    (hin : r.ruleInput = pre ++ i :: post) (hi : targetMap i = none)
    (h1 : Reachable env s1) (h2 : Reachable env s2) :
    (∀ fuel,
      (CalculateHashForRule env fuel { r with ruleInput := pre ++ post } targetMap s2).value =
        (CalculateHashForRule env fuel r targetMap s1).value) ∧
    (∀ fuel,
      (CalculateHash env fuel label (some (.rule { r with ruleInput := pre ++ post }))
          targetMap s2).value =
        (CalculateHash env fuel label (some (.rule r)) targetMap s1).value) ∧
    (targetMap label = some (.rule r) → ∀ fuel,
      (CalculateHash env fuel label (some (.rule { r with ruleInput := pre ++ post }))
          (Function.update targetMap label (some (.rule { r with ruleInput := pre ++ post })))
          s2).value =
        (CalculateHash env fuel label (some (.rule r)) targetMap s1).value) := by
  have hattr : GetRuleAttributes r = GetRuleAttributes { r with ruleInput := pre ++ post } := rfl
  have hpres : presentInputs targetMap r.ruleInput =
      presentInputs targetMap ({ r with ruleInput := pre ++ post } : Rule).ruleInput := by
    rw [hin]
    exact presentInputs_remove_absent pre post hi
  refine ⟨?_, ?_, ?_⟩
  · intro fuel
    rw [CalculateHashForRule_value env fuel _ targetMap s2 h2.wf,
      CalculateHashForRule_value env fuel r targetMap s1 h1.wf,
      ruleBytes_congr env (MapSim.self targetMap) fuel hattr hpres]
  · intro fuel
    rw [CalculateHash_value env fuel label _ _ s2 h2.wf,
      CalculateHash_value env fuel label _ _ s1 h1.wf]
    exact (digestOf_congr env (MapSim.self targetMap) fuel _ _
      (Or.inr ⟨r, _, rfl, rfl, hattr, hpres⟩)).symm
  · intro hr fuel
    have hm := MapSim.update hr hattr hpres
    rw [CalculateHash_value env fuel label _ _ s2 h2.wf,
      CalculateHash_value env fuel label _ _ s1 h1.wf]
    exact (digestOf_congr env hm fuel _ _
      (Or.inr ⟨r, _, rfl, rfl, hattr, by rw [← hm.presentInputs_eq]; exact hpres⟩)).symm

/-- C5 at the scenario: the dangling input `//:gone` of `//:B` is removed. -/
theorem C5_dangling_input_removal_witness :
    demoB.ruleInput = [] ++ "//:gone" :: ["//:x.go"] ∧ demoMapB "//:gone" = none ∧
    Reachable demoEnv State.init ∧
    (CalculateHashForRule demoEnv 1 { demoB with ruleInput := [] ++ ["//:x.go"] } demoMapB
        State.init).value =
      (CalculateHashForRule demoEnv 1 demoB demoMapB State.init).value ∧
    (CalculateHashForRule demoEnv 1 demoB demoMapB State.init).value = .ok [173, 210] :=
  ⟨rfl, rfl, .init,
    (C5_dangling_input_removal demoEnv demoMapB "//:B" demoB [] ["//:x.go"] "//:gone"
      State.init State.init rfl rfl .init .init).1 1, by decide⟩

theorem sourceDigest_empty {env : Env} {f : SourceFile}
    (h : env.stat (combinedPath env f) ≠ .ok ∨ (env.readFile (combinedPath env f)).data = []) :
    sourceDigest env f = env.hash [] := by
  unfold sourceDigest resolve
  by_cases hst : env.stat (combinedPath env f) = .ok
  · rcases h with h | h
    · exact absurd hst h
    · simp only [hst, if_true]
      split
      · rfl
      · rw [h]
  · simp [hst]

/-- C7 (counterexample): the file `/ws/x.go` exists; in one environment it is empty, in the other
its read fails after seven bytes. `CalculateHashForSourceFile` and `CalculateHash` hash the seven
bytes, so the unreadable file does not get the digest of the empty file. -/
theorem C7_torn_read_differs :
    demoEnvTornRead.stat "/ws/x.go" = .ok ∧
    (demoEnvTornRead.readFile "/ws/x.go").failed = true ∧
    demoEnvEmptyFile.stat "/ws/x.go" = .ok ∧
    demoEnvEmptyFile.readFile "/ws/x.go" = ⟨[], false⟩ ∧
    combinedPath demoEnvTornRead demoX = "/ws/x.go" ∧
    combinedPath demoEnvEmptyFile demoX = "/ws/x.go" ∧
    (CalculateHashForSourceFile demoEnvTornRead demoX State.init).1 ≠
      (CalculateHashForSourceFile demoEnvEmptyFile demoX State.init).1 ∧
    (CalculateHash demoEnvTornRead 1 "//:x.go" (some (.sourceFile demoX)) demoMap
        State.init).value ≠
      (CalculateHash demoEnvEmptyFile 1 "//:x.go" (some (.sourceFile demoX)) demoMap
        State.init).value := by
  decide

/-- The digest of a source file whose path `os.Stat` accepts is the hash of the bytes
`ioutil.ReadFile` returns, whether or not it reports an error. -/
theorem sourceDigest_read {env : Env} {f : SourceFile}
    (hst : env.stat (combinedPath env f) = .ok) (hne : combinedPath env f ≠ "") :
    sourceDigest env f = env.hash (env.readFile (combinedPath env f)).data := by
  unfold sourceDigest resolve
  simp [hst, hne]

/-- C7 (amended): a source file whose resolved path does not exist or cannot be stat'ed, or whose
read returns no bytes, gets from `CalculateHashForSourceFile` and from `CalculateHash` exactly
the digest of a source file whose resolved file exists and is empty, under the same hash
function; none of these errors makes the call fail, `CalculateHash` returns for every positive
budget. In general (last part), when `os.Stat` accepts the path the digest is the hash of the
bytes `ioutil.ReadFile` returns, with or without an error: after a read that fails midway the
bytes read so far are hashed. All of this holds in every state that satisfies the invariants
of the run, so also inside the call for a rule, where the program digests source files. -/
theorem C7_missing_file_as_empty (env1 env2 : Env) (f1 f2 : SourceFile) (s1 s2 : State)
    (hh : env1.hash = env2.hash)
    (hmiss : env1.stat (combinedPath env1 f1) ≠ .ok ∨
      (env1.readFile (combinedPath env1 f1)).data = [])
    (_hex : env2.stat (combinedPath env2 f2) = .ok)
    (hempty : env2.readFile (combinedPath env2 f2) = ⟨[], false⟩)
    (h1 : s1.WF env1) (h2 : s2.WF env2) :
    (CalculateHashForSourceFile env1 f1 s1).1 = (CalculateHashForSourceFile env2 f2 s2).1 ∧
    (CalculateHashForSourceFile env1 f1 s1).1 = env1.hash [] ∧
    (∀ (fuel : Nat) (l1 l2 : String) (tm1 tm2 : TargetMap), ∃ t1 t2,
      CalculateHash env1 (fuel + 1) l1 (some (.sourceFile f1)) tm1 s1 =
        .ok (env1.hash (env1.hash []), t1) ∧
      CalculateHash env2 (fuel + 1) l2 (some (.sourceFile f2)) tm2 s2 =
        .ok (env1.hash (env1.hash []), t2)) ∧
    (∀ (env : Env) (f : SourceFile) (s : State), s.WF env →
      env.stat (combinedPath env f) = .ok → combinedPath env f ≠ "" →
      (CalculateHashForSourceFile env f s).1 =
        env.hash (env.readFile (combinedPath env f)).data ∧
      ∀ (fuel : Nat) (label : String) (tm : TargetMap), ∃ t,
        CalculateHash env (fuel + 1) label (some (.sourceFile f)) tm s =
          .ok (env.hash (env.hash (env.readFile (combinedPath env f)).data), t)) := by
  have e1 : sourceDigest env1 f1 = env1.hash [] := sourceDigest_empty hmiss
  have e2 : sourceDigest env2 f2 = env1.hash [] := by
    rw [hh]
    exact sourceDigest_empty (Or.inr (by rw [hempty]))
  have c1 := (CalculateHashForSourceFile_spec env1 f1 s1 h1.2).1
  have c2 := (CalculateHashForSourceFile_spec env2 f2 s2 h2.2).1
  refine ⟨by rw [c1, c2, e1, e2], by rw [c1, e1], ?_, ?_⟩
  · intro fuel l1 l2 tm1 tm2
    have d1 : digestOf env1 (fuel + 1) (some (.sourceFile f1)) tm1 =
        .ok (env1.hash (env1.hash [])) := by
      simp only [digestOf, e1]
    have d2 : digestOf env2 (fuel + 1) (some (.sourceFile f2)) tm2 =
        .ok (env1.hash (env1.hash [])) := by
      simp only [digestOf, e2, hh]
    obtain ⟨t1, r1, _⟩ := CalculateHash_returns d1 l1 s1 h1
    obtain ⟨t2, r2, _⟩ := CalculateHash_returns d2 l2 s2 h2
    exact ⟨t1, t2, r1, r2⟩
  · intro env f s hs hst hne
    have e := sourceDigest_read hst hne
    refine ⟨by rw [(CalculateHashForSourceFile_spec env f s hs.2).1, e], ?_⟩
    intro fuel label tm
    have d : digestOf env (fuel + 1) (some (.sourceFile f)) tm =
        .ok (env.hash (env.hash (env.readFile (combinedPath env f)).data)) := by
      simp only [digestOf, e]
    obtain ⟨t, r, _⟩ := CalculateHash_returns d label s hs
    exact ⟨t, r⟩

/-- C7 at the scenario, inside the call for `//:A`: the missing `/ws/y.go` against the empty
`/ws/x.go`, and the read of `/ws/x.go` that fails after seven bytes, whose seven bytes are
hashed by `CalculateHashForSourceFile` and by the nested call of `CalculateHash`. -/
theorem C7_missing_file_as_empty_witness :
    demoEnv.hash = demoEnvEmptyFile.hash ∧
    (demoEnv.stat (combinedPath demoEnv ⟨"//:y.go", "/ws/BUILD:2:1"⟩) ≠ .ok ∨
      (demoEnv.readFile (combinedPath demoEnv ⟨"//:y.go", "/ws/BUILD:2:1"⟩)).data = []) ∧
    demoEnvEmptyFile.stat (combinedPath demoEnvEmptyFile demoX) = .ok ∧
    demoEnvEmptyFile.readFile (combinedPath demoEnvEmptyFile demoX) = ⟨[], false⟩ ∧
    demoInRule.WF demoEnv ∧ demoInRule.WF demoEnvEmptyFile ∧
    (CalculateHashForSourceFile demoEnv ⟨"//:y.go", "/ws/BUILD:2:1"⟩ demoInRule).1 =
      (CalculateHashForSourceFile demoEnvEmptyFile demoX demoInRule).1 ∧
    (demoEnvTornRead.readFile (combinedPath demoEnvTornRead demoX)).failed = true ∧
    (CalculateHashForSourceFile demoEnvTornRead demoX demoInRule).1 =
      demoEnvTornRead.hash (demoEnvTornRead.readFile (combinedPath demoEnvTornRead demoX)).data ∧
    ∃ t, CalculateHash demoEnvTornRead (0 + 1) "//:x.go" (some (.sourceFile demoX)) demoMap
        demoInRule =
      .ok (demoEnvTornRead.hash (demoEnvTornRead.hash
        (demoEnvTornRead.readFile (combinedPath demoEnvTornRead demoX)).data), t) :=
  have h := C7_missing_file_as_empty demoEnv demoEnvEmptyFile ⟨"//:y.go", "/ws/BUILD:2:1"⟩ demoX
      demoInRule demoInRule rfl (Or.inl (by decide)) (by decide) (by decide)
      (demoInCall_WF demoEnv).2 (demoInCall_WF demoEnvEmptyFile).2
  ⟨rfl, Or.inl (by decide), by decide, by decide, (demoInCall_WF demoEnv).2,
    (demoInCall_WF demoEnvEmptyFile).2, h.1, by decide,
    (h.2.2.2 demoEnvTornRead demoX demoInRule (demoInCall_WF demoEnvTornRead).2 (by decide)
      (by decide)).1,
    (h.2.2.2 demoEnvTornRead demoX demoInRule (demoInCall_WF demoEnvTornRead).2 (by decide)
      (by decide)).2 0 "//:x.go" demoMap⟩

/-- The states inside the top-level call for `//:user` satisfy the invariants. -/
theorem demoInUser_WF : (∀ env, demoInUser.WF env) ∧ demoAfterGen.WF demoEnv := by
  refine ⟨fun env => ⟨?_, ?_⟩, ⟨?_, ?_⟩⟩
  · intro p hp; cases hp
  · intro p hp; cases hp
  · unfold State.FreshKeys; decide
  · unfold State.CacheSound; decide

/-- The nested call for `//:gen.go` inside the top-level call for `//:user`. -/
theorem demo_gen_call :
    CalculateHash demoEnv 3 "//:gen.go" (demoMapG "//:gen.go") demoMapG demoInUser =
      .ok ([8, 45], demoAfterGen) := by
  decide

/-- C8 (counterexample): in the scenario graph the generated file `//:gen.go` is generated by
rule `//:A`, which is present, and is an input of rule `//:user`. Inside the top-level call for
`//:user`, `CalculateHash` returns `[8, 45]` for `//:gen.go`; for `//:A` it returns
`[26, 102]`, at top level and in the recursive call made for the generated file (the entries
under keys 1 and 2 of `hashedTargets`): the generated file's digest is the hash of the rule's
digest, not that digest. -/
theorem C8_generated_file_digest_differs :
    demoMapG "//:gen.go" = some (.generatedFile demoG) ∧
    demoG.generatingRule = "//:A" ∧ demoMapG "//:A" = some (.rule demoA) ∧
    demoMapG "//:user" = some (.rule demoUser) ∧ "//:gen.go" ∈ demoUser.ruleInput ∧
    CalculateHash demoEnv 3 "//:gen.go" (demoMapG "//:gen.go") demoMapG demoInUser =
      .ok ([8, 45], demoAfterGen) ∧
    demoAfterGen.hashedTargets = [(1, [8, 45]), (2, [26, 102]), (3, [35, 118])] ∧
    (CalculateHash demoEnv 3 "//:A" (demoMapG "//:A") demoMapG State.init).value =
      .ok [26, 102] ∧
    (CalculateHash demoEnv 3 "//:gen.go" (demoMapG "//:gen.go") demoMapG demoInUser).value ≠
      (CalculateHash demoEnv 3 "//:A" (demoMapG "//:A") demoMapG State.init).value := by
  decide

/-- C8 (amended): the digest `CalculateHash` returns for a generated file is the hash of the
digest it returns for the target of the generating rule: the call for the generated file, with
one more level of recursion budget, ends as the call for the generating rule's target does, and
when that one returns `d` it returns `hash d`. The two calls may be made in any two states that
satisfy the invariants of the run: the generated file's inside the call for a rule that lists
it, the rule's at top level or nested. -/
theorem C8_generated_file_digest (env : Env) (targetMap : TargetMap) (g : GeneratedFile)
    (s1 s2 : State) (h1 : s1.WF env) (h2 : s2.WF env) (fuel : Nat) :
    (CalculateHash env (fuel + 1) g.name (some (.generatedFile g)) targetMap s1).value =
      (CalculateHash env fuel g.generatingRule (targetMap g.generatingRule) targetMap
        s2).value.map env.hash := by
  rw [CalculateHash_value env (fuel + 1) g.name _ targetMap s1 h1,
    CalculateHash_value env fuel g.generatingRule _ targetMap s2 h2]
  rfl

/-- C8 at the scenario: `//:gen.go`, generated by `//:A`, is digested inside the call for
`//:user`, and `//:A` at top level. -/
theorem C8_generated_file_digest_witness :
    demoInUser.WF demoEnv ∧ State.init.WF demoEnv ∧
    (CalculateHash demoEnv (2 + 1) demoG.name (some (.generatedFile demoG)) demoMapG
        demoInUser).value =
      (CalculateHash demoEnv 2 demoG.generatingRule (demoMapG demoG.generatingRule) demoMapG
        State.init).value.map demoEnv.hash ∧
    (CalculateHash demoEnv 2 demoG.generatingRule (demoMapG demoG.generatingRule) demoMapG
        State.init).value = .ok [26, 102] ∧
    (CalculateHash demoEnv (2 + 1) demoG.name (some (.generatedFile demoG)) demoMapG
        demoInUser).value = .ok [8, 45] :=
  ⟨demoInUser_WF.1 demoEnv, State.init_WF demoEnv,
    C8_generated_file_digest demoEnv demoMapG demoG demoInUser State.init
      (demoInUser_WF.1 demoEnv) (State.init_WF demoEnv) 2,
    by decide, by decide⟩

theorem writeAttributes_of_forall₂ {env : Env} :
    ∀ (attrs : List Attribute) (bs : List Bytes) (h : Bytes),
      List.Forall₂ (fun a x => env.compactText a = some x) attrs bs →
      writeAttributes env attrs h = some (h ++ bs.flatten) := by
  intro attrs bs h hf
  induction hf generalizing h with
  | nil => simp [writeAttributes]
  | cons hx _ ih =>
    simp only [writeAttributes, hx]
    rw [ih]
    simp

theorem GetRuleAttributes_all_kept (rule : Rule)
    (h : ∀ a ∈ rule.attributes, a.name ∉ ignoredNames) :
    GetRuleAttributes rule = rule.attributes := by
  rw [GetRuleAttributes_eq_filter]
  apply List.filter_eq_self.2
  intro a ha
  have hn := h a ha
  cases hig : (ignoredAttributes.lookup a.name).getD false with
  | true => exact absurd ((ignored_iff a.name).1 hig) hn
  | false => rfl

/-- C9 (counterexample): in the scenario (attributes `[("srcs", "x.go")]`, input `//:x.go`, file
content `package main`) `CalculateHash` returns `[26, 102]` for `//:A`, while
`hash(serialize(attrs) ++ hash(content))` is `[199, 244]`. -/
theorem C9_formula_differs :
    (CalculateHash demoEnv 2 "//:A" (demoMap "//:A") demoMap State.init).value =
      .ok [26, 102] ∧
    demoEnv.compactText ⟨"srcs", asciiBytes "x.go"⟩ = some (asciiBytes "srcsx.go") ∧
    demoEnv.hash (asciiBytes "srcsx.go" ++ demoEnv.hash (asciiBytes "package main")) =
      [199, 244] ∧
    (CalculateHash demoEnv 2 "//:A" (demoMap "//:A") demoMap State.init).value ≠
      .ok (demoEnv.hash (asciiBytes "srcsx.go" ++ demoEnv.hash (asciiBytes "package main"))) := by
  decide

/-- C9 (amended): for a rule whose attributes are all kept and whose only input is a source
file present in the graph that resolves to an existing file with content `c`, `CalculateHash`
returns `hash(hash(serialize(attributes) ++ hash(hash(c))))`: every level of `CalculateHash`
hashes the digest its callee returned once more. -/
theorem C9_rule_with_one_source (env : Env) (targetMap : TargetMap) (label i : String)
    (A : Rule) (f : SourceFile) (c : Bytes) (bs : List Bytes) (s : State)
    (hattrs : ∀ a ∈ A.attributes, a.name ∉ ignoredNames)
    (hser : List.Forall₂ (fun a x => env.compactText a = some x) A.attributes bs)
    (hin : A.ruleInput = [i]) (hi : targetMap i = some (.sourceFile f))
    (hex : env.stat (combinedPath env f) = .ok) (hne : combinedPath env f ≠ "")
    (hc : env.readFile (combinedPath env f) = ⟨c, false⟩)
    (hs : Reachable env s) (fuel : Nat) :
    ∃ s1, CalculateHash env (fuel + 2) label (some (.rule A)) targetMap s =
      .ok (env.hash (env.hash (bs.flatten ++ env.hash (env.hash c))), s1) := by
  have hsrc : sourceDigest env f = env.hash c := by
    unfold sourceDigest resolve
    simp [hex, hne, hc]
  have hd : digestOf env (fuel + 2) (some (.rule A)) targetMap =
      .ok (env.hash (env.hash (bs.flatten ++ env.hash (env.hash c)))) := by
    simp only [digestOf, ruleBytesWith, GetRuleAttributes_all_kept A hattrs,
      writeAttributes_of_forall₂ _ _ [] hser, hin, inputDigests, hi, hsrc, Res.map]
    simp
  obtain ⟨s1, e, _⟩ := CalculateHash_returns hd label s hs.wf
  exact ⟨s1, e⟩

/-- C9 at the scenario of the claim. -/
theorem C9_rule_with_one_source_witness :
    (∀ a ∈ demoA.attributes, a.name ∉ ignoredNames) ∧
    demoMap "//:x.go" = some (.sourceFile demoX) ∧
    demoEnv.stat (combinedPath demoEnv demoX) = .ok ∧
    demoEnv.readFile (combinedPath demoEnv demoX) = ⟨asciiBytes "package main", false⟩ ∧
    ∃ s1, CalculateHash demoEnv (0 + 2) "//:A" (some (.rule demoA)) demoMap State.init =
      .ok (demoEnv.hash (demoEnv.hash ([asciiBytes "srcsx.go"].flatten ++
        demoEnv.hash (demoEnv.hash (asciiBytes "package main")))), s1) :=
  ⟨by decide, rfl, by decide, by decide,
    C9_rule_with_one_source demoEnv demoMap "//:A" "//:x.go" demoA demoX
      (asciiBytes "package main") [asciiBytes "srcsx.go"] State.init (by decide)
      (List.Forall₂.cons (by decide) List.Forall₂.nil) rfl rfl (by decide) (by decide)
      (by decide) .init 0⟩

/-- C10 (counterexample): the package group `//:friends` is an input of rule `//:user`. Inside
the top-level call for `//:user`, started with empty maps, the loop calls `CalculateHash` for
`//:friends` in the state `demoAfterGen`; the call returns the hash of the empty input and
leaves `hashedTargets` with one more entry, under key 4, holding that digest. The entry is
still there when the top-level call returns. -/
theorem C10_package_group_is_cached :
    ∃ s1 s2, demoMapG "//:friends" = some (.packageGroup demoP) ∧
      "//:friends" ∈ demoUser.ruleInput ∧
      CalculateHash demoEnv 3 "//:friends" (demoMapG "//:friends") demoMapG demoAfterGen =
        .ok ([0, 1], s1) ∧
      demoAfterGen.hashedTargets = [(1, [8, 45]), (2, [26, 102]), (3, [35, 118])] ∧
      s1.hashedTargets = [(4, [0, 1]), (1, [8, 45]), (2, [26, 102]), (3, [35, 118])] ∧
      s1.hashedTargets ≠ demoAfterGen.hashedTargets ∧
      CalculateHash demoEnv 4 "//:user" (demoMapG "//:user") demoMapG State.init =
        .ok ([26, 21], s2) ∧
      s2.heap = ["//:user", "//:gen.go", "//:gen.go", "//:x.go", "//:friends"] ∧
      s2.hashedTargets =
        [(0, [26, 21]), (4, [0, 1]), (1, [8, 45]), (2, [26, 102]), (3, [35, 118])] := by
  refine ⟨_, _, by decide, by decide, rfl, rfl, ?_, ?_, rfl, ?_, ?_⟩ <;> decide

/-- C10 (amended): a call of `CalculateHash` for a package group logs that the target is
skipped (one more event, `logSkipped label`), returns the hash of the empty input and adds
exactly one entry to `hashedTargets`, under the key of this call and holding that digest; the
entries that were there are unchanged, and so is `cachedSourceFileLocations`. This holds in
every state that satisfies the invariants of the run, so also inside the call for a rule that
lists the package group. -/
theorem C10_package_group_cached (env : Env) (targetMap : TargetMap) (label : String)
    (p : PackageGroup) (s : State) (hs : s.WF env) (fuel : Nat) :
    ∃ s1, CalculateHash env (fuel + 1) label (some (.packageGroup p)) targetMap s =
        .ok (env.hash [], s1) ∧
      s1.trace = s.trace ++ [.logSkipped label] ∧
      s1.hashedTargets = (s.heap.length, env.hash []) :: s.hashedTargets ∧
      s1.heap = s.heap ++ [label] ∧
      s1.cachedSourceFileLocations = s.cachedSourceFileLocations := by
  have hmiss : s.hashedTargets.lookup s.heap.length = none := hs.1.lookup_miss
  refine ⟨{ heap := s.heap ++ [label]
            hashedTargets := (s.heap.length, env.hash []) :: s.hashedTargets
            cachedSourceFileLocations := s.cachedSourceFileLocations
            trace := s.trace ++ [.logSkipped label] }, ?_, rfl, rfl, rfl, rfl⟩
  simp only [CalculateHash, hmiss]
  rfl

/-- C10 at the scenario: the package group `//:friends`, digested inside the call for
`//:user`. -/
theorem C10_package_group_cached_witness :
    demoAfterGen.WF demoEnv ∧
    ∃ s1, CalculateHash demoEnv (2 + 1) "//:friends" (some (.packageGroup demoP)) demoMapG
        demoAfterGen = .ok (demoEnv.hash [], s1) ∧
      s1.trace = demoAfterGen.trace ++ [.logSkipped "//:friends"] ∧
      s1.hashedTargets = (demoAfterGen.heap.length, demoEnv.hash []) :: demoAfterGen.hashedTargets ∧
      s1.heap = demoAfterGen.heap ++ ["//:friends"] ∧
      s1.cachedSourceFileLocations = demoAfterGen.cachedSourceFileLocations :=
  ⟨demoInUser_WF.2,
    C10_package_group_cached demoEnv demoMapG "//:friends" demoP demoAfterGen demoInUser_WF.2 2⟩

theorem ruleBytes_le (env : Env) (targetMap : TargetMap) {fuel1 fuel2 : Nat}
    (hle : fuel1 ≤ fuel2) (r : Rule) (h : ruleBytes env fuel1 r targetMap ≠ .outOfFuel) :
    ruleBytes env fuel2 r targetMap = ruleBytes env fuel1 r targetMap := by
  unfold ruleBytes ruleBytesWith at h ⊢
  cases hw : writeAttributes env (GetRuleAttributes r) [] with
  | none => rfl
  | some b =>
    rw [hw] at h
    exact inputDigests_mono (fun t ht => digestOf_le env targetMap hle t ht) _ _ h

theorem ruleBytes_agree (env : Env) (targetMap : TargetMap) (fuel1 fuel2 : Nat) (r : Rule)
    (b1 b2 : Bytes) (h1 : ruleBytes env fuel1 r targetMap = .ok b1)
    (h2 : ruleBytes env fuel2 r targetMap = .ok b2) : b1 = b2 := by
  rcases Nat.le_total fuel1 fuel2 with hle | hle
  · have := ruleBytes_le env targetMap hle r (by rw [h1]; simp)
    rw [h1, h2] at this
    exact (Res.ok.inj this).symm
  · have := ruleBytes_le env targetMap hle r (by rw [h2]; simp)
    rw [h1, h2] at this
    exact Res.ok.inj this

theorem Returns.toDigest {env : Env} {targetMap : TargetMap} {l : String} {d : Bytes}
    (h : Returns env targetMap l d) : ∃ fuel, digestOf env fuel (targetMap l) targetMap = .ok d := by
  obtain ⟨fuel, s, s1, hs, e⟩ := h
  exact ⟨fuel, CalculateHash_ok_digestOf hs e⟩

theorem Returns.ofDigest {env : Env} {targetMap : TargetMap} {l : String} {d : Bytes}
    {fuel : Nat} (h : digestOf env fuel (targetMap l) targetMap = .ok d) :
    Returns env targetMap l d := by
  obtain ⟨s1, e, _⟩ := CalculateHash_returns h l State.init (State.init_WF env)
  exact ⟨fuel, State.init, s1, State.init_WF env, e⟩

theorem HashesBytes.toBytes {env : Env} {targetMap : TargetMap} {r : Rule} {b : Bytes}
    (h : HashesBytes env targetMap r b) : ∃ fuel, ruleBytes env fuel r targetMap = .ok b := by
  obtain ⟨fuel, s, s1, hs, e⟩ := h
  refine ⟨fuel, ?_⟩
  have := (ruleHashInput_spec (CalculateHash_refines env targetMap fuel) r s hs).1
  rw [Res.value_ok e] at this
  exact this.symm

theorem HashesBytes.ofBytes {env : Env} {targetMap : TargetMap} {r : Rule} {b : Bytes}
    {fuel : Nat} (h : ruleBytes env fuel r targetMap = .ok b) : HashesBytes env targetMap r b := by
  have := (ruleHashInput_spec (CalculateHash_refines env targetMap fuel) r State.init
    (State.init_WF env)).1
  rw [show ruleBytesWith env (fun t => digestOf env fuel t targetMap) r targetMap = .ok b from h]
    at this
  obtain ⟨s1, e⟩ := Res.value_eq_ok this
  exact ⟨fuel, State.init, s1, State.init_WF env, e⟩

theorem digestOf_length {env : Env} {w : Nat} (hw : ∀ b, (env.hash b).length = w)
    {fuel : Nat} {t : Option Target} {targetMap : TargetMap} {d : Bytes}
    (h : digestOf env fuel t targetMap = .ok d) : d.length = w := by
  cases fuel with
  | zero => cases h
  | succ fuel =>
    cases t with
    | none => cases h
    | some t =>
      cases t with
      | rule r =>
        simp only [digestOf] at h
        cases hb : ruleBytesWith env (fun t => digestOf env fuel t targetMap) r targetMap with
        | ok b =>
          rw [hb] at h
          simp only [Res.map, Res.ok.injEq] at h
          rw [← h]; exact hw _
        | fatal => rw [hb] at h; cases h
        | panic => rw [hb] at h; cases h
        | outOfFuel => rw [hb] at h; cases h
      | sourceFile f =>
        simp only [digestOf, Res.ok.injEq] at h
        rw [← h]; exact hw _
      | generatedFile g =>
        simp only [digestOf] at h
        cases hb : digestOf env fuel (targetMap g.generatingRule) targetMap with
        | ok b =>
          rw [hb] at h
          simp only [Res.map, Res.ok.injEq] at h
          rw [← h]; exact hw _
        | fatal => rw [hb] at h; cases h
        | panic => rw [hb] at h; cases h
        | outOfFuel => rw [hb] at h; cases h
      | packageGroup p =>
        simp only [digestOf, Res.ok.injEq] at h
        rw [← h]; exact hw _
      | other k =>
        simp only [digestOf, Res.ok.injEq] at h
        rw [← h]; exact hw _

theorem writeAttributes_congr {env1 env2 : Env} (h : env1.compactText = env2.compactText) :
    ∀ (attrs : List Attribute) (b : Bytes),
      writeAttributes env1 attrs b = writeAttributes env2 attrs b := by
  intro attrs
  induction attrs with
  | nil => intro b; rfl
  | cons a rest ih =>
    intro b
    simp only [writeAttributes, h]
    cases env2.compactText a with
    | none => rfl
    | some x => exact ih _

/-- Two runs of fixed-width chunks over the same labels that concatenate to the same bytes
agree chunk by chunk. -/
theorem chunks_agree {R1 R2 : String → Bytes → Prop} {w : Nat}
    (hl1 : ∀ i d, R1 i d → d.length = w) (hl2 : ∀ i d, R2 i d → d.length = w) :
    ∀ (L : List String) (ds1 ds2 : List Bytes), List.Forall₂ R1 L ds1 → List.Forall₂ R2 L ds2 →
      ds1.flatten = ds2.flatten → ∀ m ∈ L, ∃ d, R1 m d ∧ R2 m d := by
  intro L
  induction L with
  | nil => intro _ _ _ _ _ m hm; cases hm
  | cons i rest ih =>
    intro ds1 ds2 h1 h2 he m hm
    cases h1 with
    | cons hx1 hr1 =>
      cases h2 with
      | cons hx2 hr2 =>
        rename_i x1 r1 x2 r2
        simp only [List.flatten_cons] at he
        have hlen : x1.length = x2.length := by rw [hl1 _ _ hx1, hl2 _ _ hx2]
        obtain ⟨ex, er⟩ := List.append_inj he hlen
        rcases List.mem_cons.1 hm with rfl | hm
        · exact ⟨x1, hx1, by rw [ex]; exact hx2⟩
        · exact ih _ _ hr1 hr2 er m hm

theorem StableRule.present_eq {tm1 tm2 : TargetMap} {l : String} {r1 r2 : Rule}
    (h : StableRule tm1 tm2 l r1 r2) :
    presentInputs tm1 r1.ruleInput = presentInputs tm2 r2.ruleInput := by
  obtain ⟨_, _, hi, hp⟩ := h
  rw [← hi]
  unfold presentInputs
  apply List.filter_congr
  intro i hmem
  exact hp i hmem

theorem flatten_length_of_forall₂ {R : String → Bytes → Prop} {w : Nat}
    (hl : ∀ i d, R i d → d.length = w) :
    ∀ (L : List String) (ds : List Bytes), List.Forall₂ R L ds →
      ds.flatten.length = L.length * w := by
  intro L ds h
  induction h with
  | nil => simp
  | @cons a b l1 l2 hab _ ih =>
    simp only [List.flatten_cons, List.length_append, List.length_cons, ih, hl a b hab]
    rw [Nat.succ_mul]
    omega

/-- One step: if the digests of a present input differ, so do the byte strings hashed for a
stable rule that lists it, whatever the attributes of the rule are in the two graphs: the
digests of the present inputs are the last bytes of the string, each of the same width. -/
theorem step_bytes_ne {env1 env2 : Env} {tm1 tm2 : TargetMap} {w : Nat}
    (hh : env1.hash = env2.hash) (hw : ∀ b, (env1.hash b).length = w)
    {l m : String} {r1 r2 : Rule} (hrule : StableRule tm1 tm2 l r1 r2)
    (hm : m ∈ r1.ruleInput) (hmp : (tm1 m).isSome = true)
    (hx : ∀ x1 x2 f1 f2, digestOf env1 f1 (tm1 m) tm1 = .ok x1 →
      digestOf env2 f2 (tm2 m) tm2 = .ok x2 → x1 ≠ x2)
    {f1 f2 : Nat} {b1 b2 : Bytes}
    (hb1 : ruleBytes env1 f1 r1 tm1 = .ok b1) (hb2 : ruleBytes env2 f2 r2 tm2 = .ok b2) :
    b1 ≠ b2 := by
  have hw2 : ∀ b, (env2.hash b).length = w := fun b => by rw [← hh]; exact hw b
  unfold ruleBytes ruleBytesWith at hb1 hb2
  cases hwa1 : writeAttributes env1 (GetRuleAttributes r1) [] with
  | none => rw [hwa1] at hb1; cases hb1
  | some h1 =>
    cases hwa2 : writeAttributes env2 (GetRuleAttributes r2) [] with
    | none => rw [hwa2] at hb2; cases hb2
    | some h2 =>
      rw [hwa1] at hb1
      rw [hwa2] at hb2
      obtain ⟨ds1, hds1, e1⟩ := inputDigests_eq_ok _ _ _ hb1
      obtain ⟨ds2, hds2, e2⟩ := inputDigests_eq_ok _ _ _ hb2
      have hL : r2.ruleInput.filter (fun i => (tm2 i).isSome) =
          r1.ruleInput.filter (fun i => (tm1 i).isSome) := hrule.present_eq.symm
      rw [hL] at hds2
      have hl1 : ∀ i d, digestOf env1 f1 (tm1 i) tm1 = .ok d → d.length = w :=
        fun i d hd => digestOf_length hw hd
      have hl2 : ∀ i d, digestOf env2 f2 (tm2 i) tm2 = .ok d → d.length = w :=
        fun i d hd => digestOf_length hw2 hd
      have hlen : ds1.flatten.length = ds2.flatten.length := by
        rw [flatten_length_of_forall₂ hl1 _ _ hds1, flatten_length_of_forall₂ hl2 _ _ hds2]
      intro hb
      rw [e1, e2] at hb
      have hfl : ds1.flatten = ds2.flatten := (List.append_inj' hb hlen).2
      have hmem : m ∈ r1.ruleInput.filter (fun i => (tm1 i).isSome) :=
        List.mem_filter.2 ⟨hm, hmp⟩
      obtain ⟨d, hd1, hd2⟩ := chunks_agree hl1 hl2 _ ds1 ds2 hds1 hds2 hfl m hmem
      exact hx d d f1 f2 hd1 hd2 rfl

theorem digestOf_rule_ok {env : Env} {fuel : Nat} {r : Rule} {targetMap : TargetMap} {d : Bytes}
    (h : digestOf env fuel (some (.rule r)) targetMap = .ok d) :
    ∃ f b, fuel = f + 1 ∧ ruleBytes env f r targetMap = .ok b ∧ d = env.hash (env.hash b) := by
  cases fuel with
  | zero => cases h
  | succ f =>
    simp only [digestOf] at h
    cases hb : ruleBytesWith env (fun t => digestOf env f t targetMap) r targetMap with
    | ok b =>
      rw [hb] at h
      simp only [Res.map, Res.ok.injEq] at h
      exact ⟨f, b, rfl, hb, h.symm⟩
    | fatal => rw [hb] at h; cases h
    | panic => rw [hb] at h; cases h
    | outOfFuel => rw [hb] at h; cases h

/-- Along a chain of stable rules on which the hash does not collide, a change of the digest at
the end changes the digest at the start. -/
theorem chain_digest_ne {env1 env2 : Env} {tm1 tm2 : TargetMap} {w : Nat}
    (hh : env1.hash = env2.hash)
    (hw : ∀ b, (env1.hash b).length = w) {t : String} {d1 d2 : Bytes}
    (ht1 : ∃ f, digestOf env1 f (tm1 t) tm1 = .ok d1)
    (ht2 : ∃ f, digestOf env2 f (tm2 t) tm2 = .ok d2) (hne : d1 ≠ d2) :
    ∀ (rest : List String) (m : String), Chain tm1 tm2 m rest t →
      (∀ x ∈ (m :: rest).dropLast, NoCollisionAt env1 env2 tm1 tm2 x) →
      ∀ x1 x2 f1 f2, digestOf env1 f1 (tm1 m) tm1 = .ok x1 →
        digestOf env2 f2 (tm2 m) tm2 = .ok x2 → x1 ≠ x2 := by
  intro rest
  induction rest with
  | nil =>
    intro m hc _ x1 x2 f1 f2 e1 e2
    simp only [Chain] at hc
    subst hc
    obtain ⟨g1, t1⟩ := ht1
    obtain ⟨g2, t2⟩ := ht2
    rw [digestOf_agree env1 tm1 f1 g1 _ x1 d1 e1 t1, digestOf_agree env2 tm2 f2 g2 _ x2 d2 e2 t2]
    exact hne
  | cons m2 rest ih =>
    intro m hc hnc x1 x2 f1 f2 e1 e2
    obtain ⟨⟨r1, r2, hrule, hmem, hpres⟩, hc2⟩ := hc
    have hnc2 : ∀ x ∈ (m2 :: rest).dropLast, NoCollisionAt env1 env2 tm1 tm2 x := by
      intro x hx
      apply hnc
      rw [List.dropLast_cons₂]
      exact List.mem_cons_of_mem _ hx
    have hm : NoCollisionAt env1 env2 tm1 tm2 m := by
      apply hnc
      rw [List.dropLast_cons₂]
      exact List.mem_cons_self _ _
    have hx := ih m2 hc2 hnc2
    rw [hrule.1] at e1
    rw [hrule.2.1] at e2
    obtain ⟨g1, b1, _, hb1, hx1⟩ := digestOf_rule_ok e1
    obtain ⟨g2, b2, _, hb2, hx2⟩ := digestOf_rule_ok e2
    have hb := step_bytes_ne hh hw hrule hmem hpres hx hb1 hb2
    rw [hx1, hx2, ← hh]
    exact hm r1 r2 b1 b2 hrule.1 hrule.2.1 (HashesBytes.ofBytes hb1) (HashesBytes.ofBytes hb2) hb

/-- C6 (counterexample): two pairs of graphs in which the digest of `//:b.go` changes (from
`[15, 96]` to `[12, 45]`), `//:b.go` is reachable through rule inputs that are all present, and
the rule at the top keeps its attributes and its input list, yet the byte string hashed for that
rule and its digest stay the same. In the first pair the rule `//:mid` between `//:top` and the
file lists its two inputs in the other order after the change; in the second pair the rule
`//:wide` lists `//:b.go` itself, and another input leaves the graph while a dangling one
arrives. -/
theorem C6_unchanged_despite_dependency :
    ((CalculateHash envBefore 3 "//:b.go" (mapBefore "//:b.go") mapBefore State.init).value =
        .ok [15, 96] ∧
      (CalculateHash envAfter 3 "//:b.go" (mapAfter "//:b.go") mapAfter State.init).value =
        .ok [12, 45] ∧
      mapBefore "//:top" = some (.rule demoTop) ∧ mapAfter "//:top" = some (.rule demoTop) ∧
      "//:mid" ∈ demoTop.ruleInput ∧
      mapBefore "//:mid" = some (.rule demoMidBefore) ∧
      mapAfter "//:mid" = some (.rule demoMidAfter) ∧
      "//:b.go" ∈ demoMidBefore.ruleInput ∧ "//:b.go" ∈ demoMidAfter.ruleInput ∧
      (ruleHashInput envBefore (CalculateHash envBefore 3) demoTop mapBefore State.init).value =
        .ok [20, 139] ∧
      (ruleHashInput envAfter (CalculateHash envAfter 3) demoTop mapAfter State.init).value =
        .ok [20, 139] ∧
      (CalculateHash envBefore 3 "//:top" (mapBefore "//:top") mapBefore State.init).value =
        (CalculateHash envAfter 3 "//:top" (mapAfter "//:top") mapAfter State.init).value) ∧
    ((CalculateHash envBefore 3 "//:b.go" (wideBefore "//:b.go") wideBefore State.init).value =
        .ok [15, 96] ∧
      (CalculateHash envAfter 3 "//:b.go" (wideAfter "//:b.go") wideAfter State.init).value =
        .ok [12, 45] ∧
      wideBefore "//:wide" = some (.rule demoWide) ∧
      wideAfter "//:wide" = some (.rule demoWide) ∧
      "//:b.go" ∈ demoWide.ruleInput ∧
      (ruleHashInput envBefore (CalculateHash envBefore 3) demoWide wideBefore
          State.init).value = .ok [12, 45, 15, 96] ∧
      (ruleHashInput envAfter (CalculateHash envAfter 3) demoWide wideAfter State.init).value =
        .ok [12, 45, 15, 96] ∧
      (CalculateHash envBefore 3 "//:wide" (wideBefore "//:wide") wideBefore State.init).value =
        (CalculateHash envAfter 3 "//:wide" (wideAfter "//:wide") wideAfter State.init).value) := by
  decide

/-- C6 (amended): take two graphs with the same hash function, of fixed output width. Let a
rule at `l` list a present input `m` from which a path through rule inputs leads to a target
`t`, where every rule on the path, the one at `l` included, keeps its input list and the
presence of its inputs (attributes and serialization may change anywhere), and the hash does
not collide on the byte strings hashed for the rules strictly below `l` on the path. If the
digest `CalculateHash` returns for `t` changes, the byte string hashed for the rule at `l`
changes; `CalculateHash` returns the twofold hash of that byte string for `l`, so the digest of
`l` changes whenever the hash does not collide on the two byte strings and on their hashes.
The digests and byte strings are those of calls in any state that satisfies the invariants of
the run, at top level or nested. -/
theorem C6_dependency_sensitivity (env1 env2 : Env) (tm1 tm2 : TargetMap) (w : Nat)
    (l m t : String) (rest : List String) (r1 r2 : Rule) (d1 d2 b1 b2 : Bytes)
    (hh : env1.hash = env2.hash) (hw : ∀ b, (env1.hash b).length = w)
    (hrule : StableRule tm1 tm2 l r1 r2) (hm : m ∈ r1.ruleInput) (hmp : (tm1 m).isSome = true)
    (hchain : Chain tm1 tm2 m rest t)
    (hnc : ∀ x ∈ (m :: rest).dropLast, NoCollisionAt env1 env2 tm1 tm2 x)
    (ht1 : Returns env1 tm1 t d1) (ht2 : Returns env2 tm2 t d2) (hne : d1 ≠ d2)
    (hb1 : HashesBytes env1 tm1 r1 b1) (hb2 : HashesBytes env2 tm2 r2 b2) :
    b1 ≠ b2 ∧
    Returns env1 tm1 l (env1.hash (env1.hash b1)) ∧
    Returns env2 tm2 l (env1.hash (env1.hash b2)) ∧
    (env1.hash (env1.hash b1) ≠ env1.hash (env1.hash b2) →
      ∀ e1 e2, Returns env1 tm1 l e1 → Returns env2 tm2 l e2 → e1 ≠ e2) := by
  obtain ⟨f1, p1⟩ := hb1.toBytes
  obtain ⟨f2, p2⟩ := hb2.toBytes
  have hx := chain_digest_ne hh hw ht1.toDigest ht2.toDigest hne rest m hchain hnc
  have hb : b1 ≠ b2 := step_bytes_ne hh hw hrule hm hmp hx p1 p2
  have q1 : digestOf env1 (f1 + 1) (tm1 l) tm1 = .ok (env1.hash (env1.hash b1)) := by
    rw [hrule.1]
    simp only [digestOf]
    rw [show ruleBytesWith env1 (fun t => digestOf env1 f1 t tm1) r1 tm1 = .ok b1 from p1]
    rfl
  have q2 : digestOf env2 (f2 + 1) (tm2 l) tm2 = .ok (env1.hash (env1.hash b2)) := by
    rw [hrule.2.1]
    simp only [digestOf]
    rw [show ruleBytesWith env2 (fun t => digestOf env2 f2 t tm2) r2 tm2 = .ok b2 from p2, hh]
    rfl
  refine ⟨hb, Returns.ofDigest q1, Returns.ofDigest q2, ?_⟩
  intro hcol e1 e2 he1 he2
  obtain ⟨g1, k1⟩ := he1.toDigest
  obtain ⟨g2, k2⟩ := he2.toDigest
  rw [digestOf_agree env1 tm1 g1 (f1 + 1) _ e1 _ k1 q1,
    digestOf_agree env2 tm2 g2 (f2 + 1) _ e2 _ k2 q2]
  exact hcol

/-- The example hash does not collide on the byte strings hashed for `//:mid`. -/
theorem demo_noCollision_mid : NoCollisionAt envBefore envChanged mapBefore mapTagged "//:mid" := by
  intro r1 r2 b1 b2 h1 h2 hb1 hb2 _
  have e1 : mapBefore "//:mid" = some (.rule demoMidBefore) := by decide
  have e2 : mapTagged "//:mid" = some (.rule demoMidTagged) := by decide
  rw [e1] at h1
  rw [e2] at h2
  cases h1
  cases h2
  obtain ⟨f1, p1⟩ := hb1.toBytes
  obtain ⟨f2, p2⟩ := hb2.toBytes
  have q1 : ruleBytes envBefore 1 demoMidBefore mapBefore = .ok [12, 45, 15, 96] := by decide
  have q2 : ruleBytes envChanged 1 demoMidTagged mapTagged =
      .ok [116, 97, 103, 115, 109, 97, 110, 117, 97, 108, 12, 45, 34, 41] := by decide
  rw [ruleBytes_agree _ _ f1 1 _ b1 _ p1 q1, ruleBytes_agree _ _ f2 1 _ b2 _ p2 q2]
  decide

/-- C6 at the scenario: the content of `b.go` changes below `//:top` through `//:mid`, and
`//:mid` gets another attribute. -/
theorem C6_dependency_sensitivity_witness :
    StableRule mapBefore mapTagged "//:top" demoTop demoTop ∧
    Chain mapBefore mapTagged "//:mid" ["//:b.go"] "//:b.go" ∧
    Returns envBefore mapBefore "//:b.go" [15, 96] ∧
    Returns envChanged mapTagged "//:b.go" [34, 41] ∧
    HashesBytes envBefore mapBefore demoTop [20, 139] ∧
    HashesBytes envChanged mapTagged demoTop [19, 97] ∧
    (([20, 139] : Bytes) ≠ [19, 97] ∧
      Returns envBefore mapBefore "//:top" (envBefore.hash (envBefore.hash [20, 139])) ∧
      Returns envChanged mapTagged "//:top" (envBefore.hash (envBefore.hash [19, 97])) ∧
      (envBefore.hash (envBefore.hash [20, 139]) ≠ envBefore.hash (envBefore.hash [19, 97]) →
        ∀ e1 e2, Returns envBefore mapBefore "//:top" e1 →
          Returns envChanged mapTagged "//:top" e2 → e1 ≠ e2)) :=
  have hstable : StableRule mapBefore mapTagged "//:top" demoTop demoTop :=
    ⟨by decide, by decide, rfl, by decide⟩
  have hchain : Chain mapBefore mapTagged "//:mid" ["//:b.go"] "//:b.go" :=
    ⟨⟨demoMidBefore, demoMidTagged, ⟨by decide, by decide, rfl, by decide⟩,
      by decide, by decide⟩, rfl⟩
  have ht1 : Returns envBefore mapBefore "//:b.go" [15, 96] :=
    Returns.ofDigest (show digestOf envBefore 1 _ mapBefore = _ by decide)
  have ht2 : Returns envChanged mapTagged "//:b.go" [34, 41] :=
    Returns.ofDigest (show digestOf envChanged 1 _ mapTagged = _ by decide)
  have hb1 : HashesBytes envBefore mapBefore demoTop [20, 139] :=
    HashesBytes.ofBytes (show ruleBytes envBefore 2 demoTop mapBefore = _ by decide)
  have hb2 : HashesBytes envChanged mapTagged demoTop [19, 97] :=
    HashesBytes.ofBytes (show ruleBytes envChanged 2 demoTop mapTagged = _ by decide)
  ⟨hstable, hchain, ht1, ht2, hb1, hb2,
    C6_dependency_sensitivity envBefore envChanged mapBefore mapTagged 2 "//:top" "//:mid"
      "//:b.go" ["//:b.go"] demoTop demoTop [15, 96] [34, 41] [20, 139] [19, 97] rfl
      (fun _ => rfl) hstable (by decide) (by decide) hchain
      (fun x hx => by
        have hx2 : x = "//:mid" := by simpa using hx
        rw [hx2]
        exact demo_noCollision_mid)
      ht1 ht2 (by decide) hb1 hb2⟩

theorem GetLabel_of_recognized {t : Target} (h : t.recognized = true) :
    ∃ l, GetLabel t = .ok l := by
  cases t with
  | rule r => exact ⟨_, rfl⟩
  | sourceFile f => exact ⟨_, rfl⟩
  | generatedFile g => exact ⟨_, rfl⟩
  | packageGroup p => exact ⟨_, rfl⟩
  | other k => cases h

theorem GetLabel_cases (t : Target) :
    (∃ l, GetLabel t = .ok l ∧ t.recognized = true) ∨
      (GetLabel t = .fatal ∧ t.recognized = false) := by
  cases t with
  | rule r => exact Or.inl ⟨_, rfl, rfl⟩
  | sourceFile f => exact Or.inl ⟨_, rfl, rfl⟩
  | generatedFile g => exact Or.inl ⟨_, rfl, rfl⟩
  | packageGroup p => exact Or.inl ⟨_, rfl, rfl⟩
  | other k => exact Or.inr ⟨rfl, rfl⟩

theorem getLast?_filter_append_singleton (p : Target → Bool) (l : List Target) (t : Target) :
    ((l ++ [t]).filter p).getLast? = if p t then some t else (l.filter p).getLast? := by
  rw [List.filter_append]
  cases hp : p t with
  | true => simp [List.filter, hp]
  | false => simp [List.filter, hp]

/-- The loop invariant of `CreateTargetMap`: after the targets `done`, the map holds for every
label the last of them that carries it. -/
theorem createTargetMapLoop_spec :
    ∀ (todo done : List Target) (result : TargetMap),
      (∀ l, result l = lastWithLabel done l) →
      (∀ t ∈ todo, t.recognized = true) →
      ∃ m, createTargetMapLoop todo result = .ok m ∧ ∀ l, m l = lastWithLabel (done ++ todo) l := by
  intro todo
  induction todo with
  | nil =>
    intro done result hres _
    exact ⟨result, rfl, by simpa using hres⟩
  | cons t rest ih =>
    intro done result hres hrec
    obtain ⟨lab, hlab⟩ := GetLabel_of_recognized (hrec t (List.mem_cons_self _ _))
    have hstep : ∀ l, Function.update result lab (some t) l = lastWithLabel (done ++ [t]) l := by
      intro l
      unfold lastWithLabel
      rw [getLast?_filter_append_singleton]
      by_cases hl : l = lab
      · subst hl
        simp [hlab]
      · rw [Function.update_noteq hl]
        have : ¬ (GetLabel t = .ok l) := by
          rw [hlab]
          intro e
          exact hl (Res.ok.inj e).symm
        simp only [this, decide_False]
        exact hres l
    obtain ⟨m, hm, hspec⟩ := ih (done ++ [t]) _ hstep
      (fun x hx => hrec x (List.mem_cons_of_mem _ hx))
    refine ⟨m, ?_, ?_⟩
    · simp only [createTargetMapLoop, hlab]
      exact hm
    · intro l
      rw [hspec l]
      simp

theorem lastWithLabel_label {targets : List Target} {l : String} {t : Target}
    (h : lastWithLabel targets l = some t) : t ∈ targets ∧ GetLabel t = .ok l := by
  unfold lastWithLabel at h
  have hmem := List.mem_of_getLast?_eq_some h
  rw [List.mem_filter] at hmem
  exact ⟨hmem.1, by simpa using hmem.2⟩

theorem lastWithLabel_eq_none {targets : List Target} {l : String} :
    lastWithLabel targets l = none ↔ ∀ t ∈ targets, GetLabel t ≠ .ok l := by
  unfold lastWithLabel
  rw [List.getLast?_eq_none_iff, List.filter_eq_nil_iff]
  simp

/-- C11: for a list of targets of recognized kinds `CreateTargetMap` returns a map that holds,
for every label, the last target of the list with that label, and nothing for a label that no
target of the list has; so every key is the label of the target stored under it. -/
theorem C11_create_target_map (targets : List Target)
    (hrec : ∀ t ∈ targets, t.recognized = true) :
    ∃ m, CreateTargetMap targets = .ok m ∧
      (∀ l, m l = lastWithLabel targets l) ∧
      (∀ l, (∀ t ∈ targets, GetLabel t ≠ .ok l) → m l = none) ∧
      (∀ k t, m k = some t → GetLabel t = .ok k) := by
  obtain ⟨m, hm, hspec⟩ := createTargetMapLoop_spec targets [] (fun _ => none)
    (fun l => by simp [lastWithLabel]) hrec
  simp only [List.nil_append] at hspec
  refine ⟨m, hm, hspec, ?_, ?_⟩
  · intro l hl
    rw [hspec l]
    exact lastWithLabel_eq_none.2 hl
  · intro k t hk
    rw [hspec k] at hk
    exact (lastWithLabel_label hk).2

/-- C11 at a list in which `//:A` occurs twice: the later rule is the one kept. -/
theorem C11_create_target_map_witness :
    (∀ t ∈ demoTargets, t.recognized = true) ∧
    lastWithLabel demoTargets "//:A" = some (.rule demoA) ∧
    ∃ m, CreateTargetMap demoTargets = .ok m ∧
      (∀ l, m l = lastWithLabel demoTargets l) ∧
      (∀ l, (∀ t ∈ demoTargets, GetLabel t ≠ .ok l) → m l = none) ∧
      (∀ k t, m k = some t → GetLabel t = .ok k) :=
  ⟨by decide, by decide, C11_create_target_map demoTargets (by decide)⟩

theorem createTargetMapLoop_fatal_iff :
    ∀ (todo : List Target) (result : TargetMap),
      (createTargetMapLoop todo result = .fatal ↔ ∃ t ∈ todo, ∃ k, t = .other k) ∧
      ((∀ t ∈ todo, ∀ k, t ≠ .other k) → ∃ m, createTargetMapLoop todo result = .ok m) := by
  intro todo
  induction todo with
  | nil =>
    intro result
    exact ⟨by simp [createTargetMapLoop], fun _ => ⟨result, rfl⟩⟩
  | cons t rest ih =>
    intro result
    cases t with
    | other k =>
      refine ⟨by simp [createTargetMapLoop, GetLabel], ?_⟩
      intro h
      exact absurd rfl (h _ (List.mem_cons_self _ _) k)
    | rule r =>
      obtain ⟨h1, h2⟩ := ih (Function.update result r.name (some (.rule r)))
      simp only [createTargetMapLoop, GetLabel]
      exact ⟨by rw [h1]; simp, fun h => h2 (fun x hx => h x (List.mem_cons_of_mem _ hx))⟩
    | sourceFile f =>
      obtain ⟨h1, h2⟩ := ih (Function.update result f.name (some (.sourceFile f)))
      simp only [createTargetMapLoop, GetLabel]
      exact ⟨by rw [h1]; simp, fun h => h2 (fun x hx => h x (List.mem_cons_of_mem _ hx))⟩
    | generatedFile g =>
      obtain ⟨h1, h2⟩ := ih (Function.update result g.name (some (.generatedFile g)))
      simp only [createTargetMapLoop, GetLabel]
      exact ⟨by rw [h1]; simp, fun h => h2 (fun x hx => h x (List.mem_cons_of_mem _ hx))⟩
    | packageGroup p =>
      obtain ⟨h1, h2⟩ := ih (Function.update result p.name (some (.packageGroup p)))
      simp only [createTargetMapLoop, GetLabel]
      exact ⟨by rw [h1]; simp, fun h => h2 (fun x hx => h x (List.mem_cons_of_mem _ hx))⟩

/-- C12: `GetLabel` returns the name field of the payload the kind selects, and it ends in
`log.Fatalf` exactly for a target of none of the four kinds. `CreateTargetMap` ends in
`log.Fatalf` exactly when the list holds such a target, and returns a map whenever it holds
none: no recognized target makes it fail, no unrecognized one is skipped. -/
theorem C12_get_label_fatal :
    (∀ r, GetLabel (.rule r) = .ok r.name) ∧
    (∀ f, GetLabel (.sourceFile f) = .ok f.name) ∧
    (∀ g, GetLabel (.generatedFile g) = .ok g.name) ∧
    (∀ p, GetLabel (.packageGroup p) = .ok p.name) ∧
    (∀ t, GetLabel t = .fatal ↔ ∃ k, t = .other k) ∧
    (∀ t, (∃ l, GetLabel t = .ok l) ↔ ∀ k, t ≠ .other k) ∧
    (∀ targets, CreateTargetMap targets = .fatal ↔ ∃ t ∈ targets, ∃ k, t = .other k) ∧
    (∀ targets, (∃ m, CreateTargetMap targets = .ok m) ↔ ∀ t ∈ targets, ∀ k, t ≠ .other k) := by
  refine ⟨fun _ => rfl, fun _ => rfl, fun _ => rfl, fun _ => rfl, ?_, ?_, ?_, ?_⟩
  · intro t
    cases t <;> simp [GetLabel]
  · intro t
    cases t <;> simp [GetLabel]
  · intro targets
    exact (createTargetMapLoop_fatal_iff targets _).1
  · intro targets
    constructor
    · rintro ⟨m, hm⟩ t ht k hk
      have := (createTargetMapLoop_fatal_iff targets (fun _ => none)).1.2 ⟨t, ht, k, hk⟩
      unfold CreateTargetMap at hm
      rw [hm] at this
      cases this
    · intro h
      exact (createTargetMapLoop_fatal_iff targets _).2 h

/-- C13: `GetRuleAttributes` returns the attributes of the rule whose name is none of
`build_file`, `generator_location` and `path`, in their order and with their multiplicity: the
result holds no attribute with one of the three names and every other attribute of the rule. -/
theorem C13_get_rule_attributes (rule : Rule) :
    GetRuleAttributes rule =
      rule.attributes.filter (fun a =>
        a.name != "build_file" && a.name != "generator_location" && a.name != "path") ∧
    (∀ a ∈ GetRuleAttributes rule,
      a.name ≠ "build_file" ∧ a.name ≠ "generator_location" ∧ a.name ≠ "path") ∧
    (∀ a ∈ rule.attributes,
      a.name ≠ "build_file" → a.name ≠ "generator_location" → a.name ≠ "path" →
      a ∈ GetRuleAttributes rule) ∧
    (GetRuleAttributes rule).Sublist rule.attributes := by
  have hfilter : GetRuleAttributes rule =
      rule.attributes.filter (fun a =>
        a.name != "build_file" && a.name != "generator_location" && a.name != "path") := by
    rw [GetRuleAttributes_eq_filter]
    apply List.filter_congr
    intro a _
    cases hig : (ignoredAttributes.lookup a.name).getD false with
    | true =>
      have := (ignored_iff a.name).1 hig
      simp only [ignoredNames, List.mem_cons, List.mem_singleton, List.not_mem_nil,
        or_false] at this
      rcases this with h | h | h <;> simp [h]
    | false =>
      have hn : a.name ∉ ignoredNames := fun hmem => by
        have := (ignored_iff a.name).2 hmem
        rw [hig] at this
        cases this
      simp only [ignoredNames, List.mem_cons, List.mem_singleton, List.not_mem_nil,
        or_false, not_or] at hn
      simp [hn.1, hn.2.1, hn.2.2]
  refine ⟨hfilter, ?_, ?_, ?_⟩
  · intro a ha
    rw [hfilter, List.mem_filter] at ha
    have h2 := ha.2
    simp only [Bool.and_eq_true, bne_iff_ne, ne_eq] at h2
    exact ⟨h2.1.1, h2.1.2, h2.2⟩
  · intro a ha h1 h2 h3
    rw [hfilter, List.mem_filter]
    exact ⟨ha, by simp [h1, h2, h3]⟩
  · rw [hfilter]
    exact List.filter_sublist _

theorem ResolverRun.cacheSound {env : Env} {s : State} (h : ResolverRun env s) :
    s.CacheSound env := by
  induction h with
  | init => exact (State.init_WF env).2
  | call source _ ih => exact (GetSourceFileLocation_spec env source _ ih).2.1

/-- C15: under a fixed filesystem, after any sequence of `GetSourceFileLocation` calls that
started with an empty cache, every entry of `cachedSourceFileLocations` maps its path to itself
if `os.Stat` succeeds on it and to the empty string otherwise, and the next call returns what a
resolver without a cache returns. -/
theorem C15_location_cache_transparent (env : Env) (s : State) (h : ResolverRun env s) :
    (∀ p ∈ s.cachedSourceFileLocations, p.2 = if env.stat p.1 = .ok then p.1 else "") ∧
    (∀ source, (GetSourceFileLocation env source s).1 = uncachedSourceFileLocation env source) ∧
    (∀ source, (GetSourceFileLocation env source s).1 =
      if env.stat (combinedPath env source) = .ok then combinedPath env source else "") := by
  have hs := h.cacheSound
  have h0 : State.init.CacheSound env := (State.init_WF env).2
  refine ⟨hs, ?_, ?_⟩
  · intro source
    unfold uncachedSourceFileLocation
    rw [(GetSourceFileLocation_spec env source s hs).1,
      (GetSourceFileLocation_spec env source _ h0).1]
  · intro source
    exact (GetSourceFileLocation_spec env source s hs).1

/-- C15 at the scenario: the resolver has looked up `//:x.go` and a missing file before. -/
theorem C15_location_cache_transparent_witness :
    ResolverRun demoEnv
      (GetSourceFileLocation demoEnv ⟨"//:y.go", "/ws/BUILD:2:1"⟩
        (GetSourceFileLocation demoEnv demoX State.init).2).2 ∧
    (GetSourceFileLocation demoEnv ⟨"//:y.go", "/ws/BUILD:2:1"⟩
        (GetSourceFileLocation demoEnv demoX State.init).2).2.cachedSourceFileLocations =
      [("/ws/y.go", ""), ("/ws/x.go", "/ws/x.go")] ∧
    ∀ source, (GetSourceFileLocation demoEnv source
        (GetSourceFileLocation demoEnv ⟨"//:y.go", "/ws/BUILD:2:1"⟩
          (GetSourceFileLocation demoEnv demoX State.init).2).2).1 =
      uncachedSourceFileLocation demoEnv source :=
  ⟨.call _ (.call _ .init), by decide,
    (C15_location_cache_transparent demoEnv _ (.call _ (.call _ .init))).2.1⟩

/-- C18: for a generated file whose generating rule is absent from the target map,
`CalculateHash` returns no digest under any recursion budget: the recursive call receives the
nil target and panics when it reads the target's kind, as soon as the budget lets the run reach
that point. This holds in every state that satisfies the invariants of the run, so also inside
the call for a rule that lists the generated file. -/
theorem C18_dangling_generating_rule (env : Env) (targetMap : TargetMap) (label : String)
    (g : GeneratedFile) (s : State)
    (hg : targetMap g.generatingRule = none) (hs : s.WF env) :
    (∀ fuel d s1,
      CalculateHash env fuel label (some (.generatedFile g)) targetMap s ≠ .ok (d, s1)) ∧
    (∀ fuel,
      CalculateHash env (fuel + 2) label (some (.generatedFile g)) targetMap s = .panic) := by
  have hmiss : s.hashedTargets.lookup s.heap.length = none := hs.1.lookup_miss
  have hs0 : ({ s with heap := s.heap ++ [label] } : State).WF env := WF_alloc hs label
  have hmiss0 : s.hashedTargets.lookup (s.heap ++ [label]).length = none :=
    State.FreshKeys.lookup_miss (s := { s with heap := s.heap ++ [label] }) hs0.1
  have hpanic : ∀ fuel,
      CalculateHash env (fuel + 2) label (some (.generatedFile g)) targetMap s = .panic := by
    intro fuel
    simp only [CalculateHash, hmiss, hmiss0, hg]
  refine ⟨?_, hpanic⟩
  intro fuel d s1 e
  match fuel, e with
  | 0, e => simp [CalculateHash] at e
  | 1, e => simp [CalculateHash, hmiss, hg] at e
  | n + 2, e => rw [hpanic n] at e; cases e

/-- C18 at the scenario: in `crashCycleMap` the rule `//:A` lists the generated file `//:out`,
whose generating rule `//:gone` is absent; the nested call for `//:out` inside the top-level
call for `//:A` panics, and with it the top-level call. -/
theorem C18_dangling_generating_rule_witness :
    crashCycleMap "//:gone" = none ∧
    crashCycleMap "//:out" = some (.generatedFile ⟨"//:out", "//:gone"⟩) ∧
    demoInRule.WF demoEnv ∧
    CalculateHash demoEnv (0 + 2) "//:out" (some (.generatedFile ⟨"//:out", "//:gone"⟩))
      crashCycleMap demoInRule = .panic ∧
    CalculateHash demoEnv 3 "//:A" (crashCycleMap "//:A") crashCycleMap State.init = .panic :=
  ⟨by decide, by decide, (demoInCall_WF demoEnv).2,
    (C18_dangling_generating_rule demoEnv crashCycleMap "//:out" ⟨"//:out", "//:gone"⟩
      demoInRule (by decide) (demoInCall_WF demoEnv).2).2 0,
    by decide⟩

theorem dumperInputsLoop_eq :
    ∀ (todo inputs : List String),
      dumperInputsLoop todo inputs =
        inputs ++ todo.filter (fun i => !stringsHasPrefix i "@") := by
  intro todo
  induction todo with
  | nil => intro inputs; simp [dumperInputsLoop]
  | cons i rest ih =>
    intro inputs
    cases hp : stringsHasPrefix i "@" with
    | true => simp [dumperInputsLoop, hp, ih, List.filter]
    | false => simp [dumperInputsLoop, hp, ih, List.filter]

theorem dumperLoop_ok :
    ∀ (todo : List Target) (output : List OutputTarget),
      (∀ t ∈ todo, t.recognized = true) →
      dumperLoop todo output = .ok (output ++ todo.filterMap dumpedTarget) := by
  intro todo
  induction todo with
  | nil => intro output _; simp [dumperLoop]
  | cons t rest ih =>
    intro output hrec
    have hrest : ∀ x ∈ rest, x.recognized = true :=
      fun x hx => hrec x (List.mem_cons_of_mem _ hx)
    cases t with
    | other k => exact absurd (hrec _ (List.mem_cons_self _ _)) (by simp [Target.recognized])
    | rule r =>
      simp only [dumperLoop, GetLabel, List.filterMap_cons, dumpedTarget]
      cases hp : (stringsHasPrefix r.name "@" || stringsHasPrefix r.name "//external") with
      | true => simp only [if_true]; exact ih output hrest
      | false =>
        simp only [Bool.false_eq_true, if_false]
        rw [ih _ hrest, dumperInputsLoop_eq]
        simp
    | sourceFile f =>
      simp only [dumperLoop, GetLabel, List.filterMap_cons, dumpedTarget]
      exact ih output hrest
    | generatedFile g =>
      simp only [dumperLoop, GetLabel, List.filterMap_cons, dumpedTarget]
      exact ih output hrest
    | packageGroup p =>
      simp only [dumperLoop, GetLabel, List.filterMap_cons, dumpedTarget]
      exact ih output hrest

theorem dumperLoop_fatal :
    ∀ (todo : List Target) (output : List OutputTarget),
      (∃ t ∈ todo, t.recognized = false) → dumperLoop todo output = .fatal := by
  intro todo
  induction todo with
  | nil => intro output h; obtain ⟨t, ht, _⟩ := h; cases ht
  | cons t rest ih =>
    intro output h
    cases t with
    | other k => simp [dumperLoop, GetLabel]
    | rule r =>
      have hrest : ∃ x ∈ rest, x.recognized = false := by
        obtain ⟨x, hx, hxr⟩ := h
        rcases List.mem_cons.1 hx with rfl | hx
        · cases hxr
        · exact ⟨x, hx, hxr⟩
      simp only [dumperLoop, GetLabel]
      split <;> exact ih _ hrest
    | sourceFile f =>
      have hrest : ∃ x ∈ rest, x.recognized = false := by
        obtain ⟨x, hx, hxr⟩ := h
        rcases List.mem_cons.1 hx with rfl | hx
        · cases hxr
        · exact ⟨x, hx, hxr⟩
      simp only [dumperLoop, GetLabel]
      exact ih _ hrest
    | generatedFile g =>
      have hrest : ∃ x ∈ rest, x.recognized = false := by
        obtain ⟨x, hx, hxr⟩ := h
        rcases List.mem_cons.1 hx with rfl | hx
        · cases hxr
        · exact ⟨x, hx, hxr⟩
      simp only [dumperLoop, GetLabel]
      exact ih _ hrest
    | packageGroup p =>
      have hrest : ∃ x ∈ rest, x.recognized = false := by
        obtain ⟨x, hx, hxr⟩ := h
        rcases List.mem_cons.1 hx with rfl | hx
        · cases hxr
        · exact ⟨x, hx, hxr⟩
      simp only [dumperLoop, GetLabel]
      exact ih _ hrest

/-- C19: whatever the dumper outputs is the projection of its input: the rules whose label
starts with neither `@` nor `//external`, in input order, each with its label and with its
inputs in declared order without those that start with `@` (inputs that start with
`//external` stay). It produces this output for every list of targets of recognized kinds, and
ends in `log.Fatalf` otherwise. -/
theorem C19_dumper_projection (targets : List Target) :
    (∀ output, dumperMain targets = .ok output → output = targets.filterMap dumpedTarget) ∧
    ((∀ t ∈ targets, t.recognized = true) →
      dumperMain targets = .ok (targets.filterMap dumpedTarget)) ∧
    ((∃ t ∈ targets, t.recognized = false) → dumperMain targets = .fatal) ∧
    (∀ r i, Target.rule r ∈ targets → i ∈ r.ruleInput → stringsHasPrefix i "//external" = true →
      ∀ o, dumpedTarget (.rule r) = some o → i ∈ o.inputs) := by
  have hok : (∀ t ∈ targets, t.recognized = true) →
      dumperMain targets = .ok (targets.filterMap dumpedTarget) := by
    intro h
    have := dumperLoop_ok targets [] h
    simpa [dumperMain] using this
  have hfatal : (∃ t ∈ targets, t.recognized = false) → dumperMain targets = .fatal :=
    fun h => dumperLoop_fatal targets [] h
  refine ⟨?_, hok, hfatal, ?_⟩
  · intro output hout
    by_cases hall : ∀ t ∈ targets, t.recognized = true
    · rw [hok hall] at hout
      exact (Res.ok.inj hout).symm
    · have hex : ∃ t ∈ targets, t.recognized = false := by
        by_contra hne
        apply hall
        intro t ht
        cases hr : t.recognized with
        | true => rfl
        | false => exact absurd ⟨t, ht, hr⟩ hne
      rw [hfatal hex] at hout
      cases hout
  · intro r i _ hi hext o ho
    simp only [dumpedTarget] at ho
    split at ho
    · cases ho
    · simp only [Option.some.injEq] at ho
      rw [← ho]
      simp only [List.mem_filter]
      refine ⟨hi, ?_⟩
      have : stringsHasPrefix i "@" = false := by
        unfold stringsHasPrefix at hext ⊢
        cases hd : i.data with
        | nil => rw [hd] at hext; simp at hext
        | cons c cs =>
          rw [hd] at hext
          have hc : c = '/' := by
            have := hext
            simp only [List.isPrefixOf] at this
            simp at this
            exact this.1.symm
          subst hc
          simp [List.isPrefixOf]
      simp [this]

/-- C19 at a list with external rules and an internal one. -/
theorem C19_dumper_projection_witness :
    (∀ t ∈ demoDumpTargets, t.recognized = true) ∧
    dumperMain demoDumpTargets = .ok [⟨"//:A", ["//:x.go", "//external:jar"]⟩] ∧
    dumperMain demoDumpTargets = .ok (demoDumpTargets.filterMap dumpedTarget) :=
  ⟨by decide, by decide, (C19_dumper_projection demoDumpTargets).2.1 (by decide)⟩

theorem splitChars_ne_nil (sep : Char) :
    ∀ (s cur : List Char), splitChars sep s cur ≠ [] := by
  intro s
  induction s with
  | nil => intro cur; simp [splitChars]
  | cons c cs ih =>
    intro cur
    simp only [splitChars]
    split
    · simp
    · exact ih _

theorem splitChars_head (sep : Char) :
    ∀ (s cur : List Char),
      (splitChars sep s cur).head? =
        some (cur.reverse ++ s.takeWhile (fun c => c != sep)) := by
  intro s
  induction s with
  | nil => intro cur; simp [splitChars]
  | cons c cs ih =>
    intro cur
    simp only [splitChars]
    by_cases hc : c = sep
    · simp [hc, List.takeWhile]
    · have hne : (c != sep) = true := by simpa using hc
      simp only [hc, if_false, List.takeWhile, hne]
      rw [ih]
      simp

theorem takeWhile_reverse_snoc_sep (sep : Char) (cs : List Char) :
    ((sep :: cs).reverse.takeWhile (fun c => c != sep)) =
      cs.reverse.takeWhile (fun c => c != sep) := by
  simp only [List.reverse_cons]
  induction cs.reverse with
  | nil => simp [List.takeWhile]
  | cons x xs ih =>
    simp only [List.cons_append, List.takeWhile]
    cases hx : (x != sep) with
    | true => simp [ih]
    | false => rfl

theorem getLast?_cons_of_ne_nil {α : Type} (a : α) {l : List α} (h : l ≠ []) :
    (a :: l).getLast? = l.getLast? := by
  cases l with
  | nil => exact absurd rfl h
  | cons b t => simp [List.getLast?]

theorem takeWhile_append_of_mem (sep : Char) (m : List Char) :
    ∀ l : List Char, sep ∈ l →
      (l ++ m).takeWhile (fun x => x != sep) = l.takeWhile (fun x => x != sep) := by
  intro l
  induction l with
  | nil => intro h; cases h
  | cons x xs ih =>
    intro h
    simp only [List.cons_append, List.takeWhile]
    cases hx : (x != sep) with
    | true =>
      have hxs : sep ∈ xs := by
        rcases List.mem_cons.1 h with e | e
        · subst e; simp at hx
        · exact e
      simp [ih hxs]
    | false => rfl

theorem takeWhile_reverse_snoc_ne (sep c : Char) (cs : List Char) (hmem : sep ∈ cs) :
    ((c :: cs).reverse.takeWhile (fun x => x != sep)) =
      cs.reverse.takeWhile (fun x => x != sep) := by
  simp only [List.reverse_cons]
  exact takeWhile_append_of_mem sep [c] cs.reverse (List.mem_reverse.2 hmem)

theorem takeWhile_all_of_not_mem (sep : Char) (l : List Char) (h : sep ∉ l) :
    l.takeWhile (fun x => x != sep) = l := by
  induction l with
  | nil => rfl
  | cons x xs ih =>
    have hx : x ≠ sep := fun e => h (by subst e; exact List.mem_cons_self _ _)
    have hxs : sep ∉ xs := fun e => h (List.mem_cons_of_mem _ e)
    have hb : (x != sep) = true := by simpa using hx
    simp only [List.takeWhile, hb]
    rw [ih hxs]

theorem afterLastChars_of_not_mem (sep : Char) (s : List Char) (h : sep ∉ s) :
    afterLastChars sep s = s := by
  unfold afterLastChars
  rw [takeWhile_all_of_not_mem sep s.reverse (fun e => h (List.mem_reverse.1 e))]
  simp

theorem splitChars_last (sep : Char) :
    ∀ (s cur : List Char),
      (splitChars sep s cur).getLast? =
        some (if sep ∈ s then afterLastChars sep s else cur.reverse ++ s) := by
  intro s
  induction s with
  | nil => intro cur; simp [splitChars]
  | cons c cs ih =>
    intro cur
    simp only [splitChars]
    by_cases hc : c = sep
    · subst hc
      simp only [if_true, List.mem_cons, true_or]
      rw [getLast?_cons_of_ne_nil _ (splitChars_ne_nil _ _ _), ih]
      congr 1
      unfold afterLastChars
      rw [takeWhile_reverse_snoc_sep]
      by_cases hm : c ∈ cs
      · simp [hm]
      · simp only [hm, if_false, List.reverse_nil, List.nil_append]
        rw [takeWhile_all_of_not_mem c cs.reverse (fun e => hm (List.mem_reverse.1 e))]
        simp
    · simp only [hc, if_false]
      rw [ih]
      congr 1
      have hsc : sep ≠ c := fun e => hc e.symm
      by_cases hm : sep ∈ cs
      · simp only [hm, if_true, List.mem_cons, or_true]
        unfold afterLastChars
        rw [takeWhile_reverse_snoc_ne sep c cs hm]
      · simp [hm, hsc]

theorem afterLastChars_eq_last (sep : Char) (s : List Char) :
    (splitChars sep s []).getLast? = some (afterLastChars sep s) := by
  rw [splitChars_last]
  by_cases hm : sep ∈ s
  · simp [hm]
  · simp [hm, afterLastChars_of_not_mem sep s hm]

theorem replaceFirstChars_spec (a b : Char) :
    ∀ s : List Char, FirstRemoved [a, b] s (replaceFirstChars [a, b] [] s) := by
  intro s
  induction s with
  | nil =>
    left
    refine ⟨?_, by simp [replaceFirstChars]⟩
    intro pre post e
    have := congrArg List.length e
    simp at this
    omega
  | cons c cs ih =>
    by_cases hp : [a, b].isPrefixOf (c :: cs) = true
    · right
      have hpre : [a, b] <+: (c :: cs) := List.isPrefixOf_iff_prefix.1 hp
      obtain ⟨post, hpost⟩ := hpre
      refine ⟨[], post, by simpa using hpost.symm, ?_, fun _ _ _ => Nat.zero_le _⟩
      simp only [replaceFirstChars, hp, if_true, List.nil_append]
      rw [← hpost]
      simp
    · have hnp : ∀ post, c :: cs ≠ [a, b] ++ post := by
        intro post e
        apply hp
        exact List.isPrefixOf_iff_prefix.2 ⟨post, e.symm⟩
      have hstep : replaceFirstChars [a, b] [] (c :: cs) =
          c :: replaceFirstChars [a, b] [] cs := by
        simp only [replaceFirstChars]
        rw [if_neg hp]
      rw [hstep]
      rcases ih with ⟨hno, ht⟩ | ⟨pre, post, hs, ht, hmin⟩
      · left
        refine ⟨?_, by rw [ht]⟩
        intro pre1 post1 e
        cases pre1 with
        | nil => exact hnp post1 (by simpa using e)
        | cons x xs =>
          simp only [List.cons_append, List.cons.injEq] at e
          exact hno xs post1 (by simpa using e.2)
      · right
        refine ⟨c :: pre, post, by rw [hs]; simp, by rw [ht]; simp, ?_⟩
        intro pre1 post1 e
        cases pre1 with
        | nil => exact absurd (by simpa using e) (hnp post1)
        | cons x xs =>
          simp only [List.cons_append, List.cons.injEq] at e
          have := hmin xs post1 (by simpa using e.2)
          simp only [List.length_cons]
          omega

theorem stringsSplit_head (s : String) (sep : Char) :
    (stringsSplit s sep).headD "" = beforeFirst sep s := by
  unfold stringsSplit beforeFirst
  have h := splitChars_head sep s.data []
  cases hl : splitChars sep s.data [] with
  | nil => exact absurd hl (splitChars_ne_nil _ _ _)
  | cons x xs =>
    rw [hl] at h
    simp only [List.head?_cons, Option.some.injEq, List.reverse_nil, List.nil_append] at h
    simp [h]

theorem stringsSplit_last (s : String) (sep : Char) :
    (stringsSplit s sep).getLastD "" = String.mk (afterLastChars sep s.data) := by
  unfold stringsSplit
  have h := afterLastChars_eq_last sep s.data
  rw [List.getLastD_eq_getLast?, List.getLast?_map, h]
  rfl

/-- The path `GetSourceFileLocation` looks up, with the first `//` of the name taken out
wherever it stands. -/
theorem combinedPath_eq (env : Env) (source : SourceFile) :
    combinedPath env source =
      env.join (env.dir (beforeFirst ':' source.location))
        (String.mk (afterLastChars ':'
          (replaceFirstChars ['/', '/'] [] source.name.data))) := by
  unfold combinedPath
  simp only [stringsSplit_head, stringsSplit_last]
  rfl

/-- C14 (counterexample): for the source file named `vendor:a//b.go`, declared in `/ws/BUILD`,
the program takes `ab.go` as `pathFromTarget` and looks up `/ws/ab.go`: the `//` that is not at
the start of the name is removed, where the claim leaves it in place and joins `a//b.go`. -/
theorem C14_inner_slashes_removed :
    stringsReplace1 "vendor:a//b.go" "//" "" = "vendor:ab.go" ∧
    (stringsSplit (stringsReplace1 "vendor:a//b.go" "//" "") ':').getLastD "" = "ab.go" ∧
    String.mk (afterLastChars ':' (stripLeadingSlashes "vendor:a//b.go").data) = "a//b.go" ∧
    combinedPath demoEnv ⟨"vendor:a//b.go", "/ws/BUILD:1:1"⟩ = "/ws/ab.go" ∧
    combinedPathLeadingOnly demoEnv ⟨"vendor:a//b.go", "/ws/BUILD:1:1"⟩ = "/ws/a//b.go" ∧
    combinedPath demoEnv ⟨"vendor:a//b.go", "/ws/BUILD:1:1"⟩ ≠
      combinedPathLeadingOnly demoEnv ⟨"vendor:a//b.go", "/ws/BUILD:1:1"⟩ := by
  decide

/-- C14 (amended): the path `GetSourceFileLocation` looks up and checks is the join of
`pathToTarget` and `pathFromTarget`, where `pathToTarget` is the directory component of the part
of `location` before its first `:` and `pathFromTarget` is the substring after the last `:` of
the name with its first occurrence of `//` removed, wherever that occurrence stands. When the
name starts with `//`, or holds no `//` at all, this is the name with a leading `//`
stripped. -/
theorem C14_combined_path (env : Env) (source : SourceFile) :
    ∃ stripped : List Char,
      FirstRemoved ['/', '/'] source.name.data stripped ∧
      combinedPath env source =
        env.join (env.dir (beforeFirst ':' source.location))
          (String.mk (afterLastChars ':' stripped)) ∧
      (∀ rest, source.name.data = '/' :: '/' :: rest → stripped = rest) ∧
      ((∀ pre post, source.name.data ≠ pre ++ ['/', '/'] ++ post) →
        stripped = source.name.data) ∧
      (((∃ rest, source.name.data = '/' :: '/' :: rest) ∨
          (∀ pre post, source.name.data ≠ pre ++ ['/', '/'] ++ post)) →
        combinedPath env source = combinedPathLeadingOnly env source) := by
  have hlead : ∀ rest, source.name.data = '/' :: '/' :: rest →
      replaceFirstChars ['/', '/'] [] source.name.data = rest := by
    intro rest e
    rw [e]
    simp [replaceFirstChars, List.isPrefixOf]
  have hnone : (∀ pre post, source.name.data ≠ pre ++ ['/', '/'] ++ post) →
      replaceFirstChars ['/', '/'] [] source.name.data = source.name.data := by
    intro h
    rcases replaceFirstChars_spec '/' '/' source.name.data with ⟨_, ht⟩ | ⟨pre, post, hs, _, _⟩
    · exact ht
    · exact absurd hs (h pre post)
  refine ⟨replaceFirstChars ['/', '/'] [] source.name.data,
    replaceFirstChars_spec '/' '/' source.name.data, combinedPath_eq env source, hlead, hnone, ?_⟩
  intro h
  rw [combinedPath_eq]
  unfold combinedPathLeadingOnly stripLeadingSlashes
  rcases h with ⟨rest, e⟩ | h
  · rw [hlead rest e, e]
    rfl
  · rw [hnone h]
    split
    · rename_i rest e
      exact absurd (by rw [e]; rfl) (h [] rest)
    · rfl

theorem inputDigests_ne_outOfFuel {c : Option Target → Res Bytes} {targetMap : TargetMap} :
    ∀ (inputs : List String) (h : Bytes),
      (∀ i ∈ inputs, (targetMap i).isSome = true → c (targetMap i) ≠ .outOfFuel) →
      inputDigests c targetMap inputs h ≠ .outOfFuel := by
  intro inputs
  induction inputs with
  | nil => intro h _; simp [inputDigests]
  | cons i rest ih =>
    intro h hc
    have hrest : ∀ x ∈ rest, (targetMap x).isSome = true → c (targetMap x) ≠ .outOfFuel :=
      fun x hx => hc x (List.mem_cons_of_mem _ hx)
    cases hti : targetMap i with
    | none =>
      simp only [inputDigests, hti]
      exact ih h hrest
    | some t =>
      have hci := hc i (List.mem_cons_self _ _) (by rw [hti]; rfl)
      rw [hti] at hci
      simp only [inputDigests, hti]
      cases hr : c (some t) with
      | ok d => exact ih _ hrest
      | fatal => simp
      | panic => simp
      | outOfFuel => exact absurd hr hci

theorem uniform_fuel (env : Env) (targetMap : TargetMap) :
    ∀ (inputs : List String),
      (∀ i ∈ inputs, (targetMap i).isSome = true →
        ∃ f, digestOf env f (targetMap i) targetMap ≠ .outOfFuel) →
      ∃ F, ∀ i ∈ inputs, (targetMap i).isSome = true →
        digestOf env F (targetMap i) targetMap ≠ .outOfFuel := by
  intro inputs
  induction inputs with
  | nil => intro _; exact ⟨0, fun i hi => by cases hi⟩
  | cons i rest ih =>
    intro h
    obtain ⟨F, hF⟩ := ih (fun x hx => h x (List.mem_cons_of_mem _ hx))
    by_cases hp : (targetMap i).isSome = true
    · obtain ⟨f, hf⟩ := h i (List.mem_cons_self _ _) hp
      refine ⟨max F f, ?_⟩
      intro x hx hxp
      rcases List.mem_cons.1 hx with rfl | hx
      · rw [digestOf_le env targetMap (le_max_right F f) _ hf]
        exact hf
      · rw [digestOf_le env targetMap (le_max_left F f) _ (hF x hx hxp)]
        exact hF x hx hxp
    · refine ⟨F, ?_⟩
      intro x hx hxp
      rcases List.mem_cons.1 hx with rfl | hx
      · exact absurd hxp hp
      · exact hF x hx hxp

/-- In a target map without dependency cycles some recursion budget is enough for every
label. -/
theorem digestOf_terminates (env : Env) (targetMap : TargetMap)
    (hwf : Acyclic (DependsOn targetMap)) :
    ∀ l, ∃ fuel, digestOf env fuel (targetMap l) targetMap ≠ .outOfFuel := by
  intro l
  induction l using hwf.induction with
  | _ l ih =>
    cases htl : targetMap l with
    | none => exact ⟨1, by simp [digestOf]⟩
    | some t =>
      cases t with
      | rule r =>
        have hin : ∀ i ∈ r.ruleInput, (targetMap i).isSome = true →
            ∃ f, digestOf env f (targetMap i) targetMap ≠ .outOfFuel :=
          fun i hi hp => ih i (Or.inl ⟨r, htl, hi, hp⟩)
        obtain ⟨F, hF⟩ := uniform_fuel env targetMap r.ruleInput hin
        refine ⟨F + 1, ?_⟩
        simp only [digestOf]
        apply Res.map_ne_outOfFuel
        unfold ruleBytesWith
        cases writeAttributes env (GetRuleAttributes r) [] with
        | none => simp
        | some h => exact inputDigests_ne_outOfFuel _ _ hF
      | sourceFile f => exact ⟨1, by simp [digestOf]⟩
      | generatedFile g =>
        obtain ⟨f, hf⟩ := ih g.generatingRule (Or.inr ⟨g, htl, rfl⟩)
        refine ⟨f + 1, ?_⟩
        simp only [digestOf]
        exact Res.map_ne_outOfFuel hf
      | packageGroup p => exact ⟨1, by simp [digestOf]⟩
      | other k => exact ⟨1, by simp [digestOf]⟩

theorem digestOf_self_generated (env : Env) :
    ∀ fuel, digestOf env fuel (selfGeneratedMap "//:g") selfGeneratedMap = .outOfFuel := by
  intro fuel
  have hg : selfGeneratedMap "//:g" = some (.generatedFile ⟨"//:g", "//:g"⟩) := by decide
  induction fuel with
  | zero => rfl
  | succ n ih =>
    rw [hg] at ih ⊢
    simp only [digestOf]
    rw [hg, ih]
    rfl

/-- C16 (counterexample): in `selfGeneratedMap` no label holds a rule, so the rule-input
relation is empty and has no cycle; yet `CalculateHash` for the generated file `//:g`, whose
generating rule is `//:g`, uses up every recursion budget. -/
theorem C16_generated_file_cycle :
    Acyclic (RuleInputOf selfGeneratedMap) ∧
    selfGeneratedMap "//:g" = some (.generatedFile ⟨"//:g", "//:g"⟩) ∧
    ∀ fuel, CalculateHash demoEnv fuel "//:g" (selfGeneratedMap "//:g") selfGeneratedMap
      State.init = .outOfFuel := by
  refine ⟨?_, by decide, ?_⟩
  · refine ⟨fun a => Acc.intro a ?_⟩
    intro b hb
    obtain ⟨r, hr, _, _⟩ := hb
    unfold selfGeneratedMap at hr
    split at hr <;> cases hr
  · intro fuel
    have hv := CalculateHash_value demoEnv fuel "//:g" (selfGeneratedMap "//:g")
      selfGeneratedMap State.init (State.init_WF demoEnv)
    rw [digestOf_self_generated] at hv
    exact Res.map_eq_outOfFuel hv

/-- C16 (amended): in a target map in which the relation made of the present rule inputs and
of the generating rules of generated files has no cycle, `CalculateHash` terminates for every
label: some budget `fuel` is enough, and with it or with any larger budget the call ends, from
every state the run can be in, in the same way, which is a returned digest, `log.Fatalf` or a
panic. -/
theorem C16_termination (env : Env) (targetMap : TargetMap)
    (hwf : Acyclic (DependsOn targetMap)) (l : String) :
    ∃ fuel r, r ≠ .outOfFuel ∧ ∀ k s, Reachable env s →
      (CalculateHash env (fuel + k) l (targetMap l) targetMap s).value = r ∧
      CalculateHash env (fuel + k) l (targetMap l) targetMap s ≠ .outOfFuel := by
  obtain ⟨fuel, hf⟩ := digestOf_terminates env targetMap hwf l
  refine ⟨fuel, digestOf env fuel (targetMap l) targetMap, hf, ?_⟩
  intro k s hs
  have hv := CalculateHash_value env (fuel + k) l (targetMap l) targetMap s hs.wf
  rw [digestOf_mono env targetMap fuel k _ hf] at hv
  refine ⟨hv, ?_⟩
  intro e
  rw [e] at hv
  exact hf hv.symm

theorem acyclic_of_rank {rel : String → String → Prop} (rank : String → Nat)
    (h : ∀ l i, rel l i → rank i < rank l) : Acyclic rel := by
  unfold Acyclic
  exact Subrelation.wf (fun {a b} hab => h b a hab) (InvImage.wf rank Nat.lt_wfRel.wf)

theorem demoMap_acyclic : Acyclic (DependsOn demoMap) := by
  apply acyclic_of_rank demoRank
  intro l i h
  rcases h with ⟨r, hr, hi, _⟩ | ⟨g, hg, _⟩
  · unfold demoMap at hr
    split at hr
    · rename_i hl
      cases hr
      simp only [demoA, List.mem_singleton] at hi
      subst hi; subst hl
      decide
    · split at hr <;> cases hr
  · unfold demoMap at hg
    split at hg
    · cases hg
    · split at hg <;> cases hg

/-- C16 at the scenario: the label `//:A` of `demoMap`. -/
theorem C16_termination_witness :
    Acyclic (DependsOn demoMap) ∧
    ∃ fuel r, r ≠ .outOfFuel ∧ ∀ k s, Reachable demoEnv s →
      (CalculateHash demoEnv (fuel + k) "//:A" (demoMap "//:A") demoMap s).value = r ∧
      CalculateHash demoEnv (fuel + k) "//:A" (demoMap "//:A") demoMap s ≠ .outOfFuel :=
  ⟨demoMap_acyclic, C16_termination demoEnv demoMap demoMap_acyclic "//:A"⟩

theorem forall₂_of_mem {R : String → Bytes → Prop} :
    ∀ (L : List String) (ds : List Bytes), List.Forall₂ R L ds → ∀ m ∈ L, ∃ d, R m d := by
  intro L ds h
  induction h with
  | nil => intro m hm; cases hm
  | @cons a b l1 l2 hab _ ih =>
    intro m hm
    rcases List.mem_cons.1 hm with rfl | hm
    · exact ⟨b, hab⟩
    · exact ih m hm

/-- A rule that lists a present input gets a digest only if that input gets one, with one
level less of budget. -/
theorem digestOf_rule_input_ok {env : Env} {targetMap : TargetMap} {fuel : Nat} {r : Rule}
    {d : Bytes} {i : String} (h : digestOf env (fuel + 1) (some (.rule r)) targetMap = .ok d)
    (hi : i ∈ r.ruleInput) (hp : (targetMap i).isSome = true) :
    ∃ di, digestOf env fuel (targetMap i) targetMap = .ok di := by
  obtain ⟨f, b, hf, hb, _⟩ := digestOf_rule_ok h
  have hff : fuel = f := Nat.succ.inj hf
  subst hff
  unfold ruleBytes ruleBytesWith at hb
  cases hw : writeAttributes env (GetRuleAttributes r) [] with
  | none => rw [hw] at hb; cases hb
  | some h0 =>
    rw [hw] at hb
    obtain ⟨ds, hds, _⟩ := inputDigests_eq_ok _ _ _ hb
    exact forall₂_of_mem _ _ hds i (List.mem_filter.2 ⟨hi, hp⟩)

theorem digestOf_cycle_not_ok (env : Env) (targetMap : TargetMap) (a b : String) (A B : Rule)
    (hA : targetMap a = some (.rule A)) (hB : targetMap b = some (.rule B))
    (hab : b ∈ A.ruleInput) (hba : a ∈ B.ruleInput) :
    ∀ fuel, (∀ d, digestOf env fuel (some (.rule A)) targetMap ≠ .ok d) ∧
      (∀ d, digestOf env fuel (some (.rule B)) targetMap ≠ .ok d) := by
  intro fuel
  induction fuel with
  | zero => exact ⟨fun d e => (by cases e), fun d e => (by cases e)⟩
  | succ n ih =>
    constructor
    · intro d e
      obtain ⟨di, hdi⟩ := digestOf_rule_input_ok e hab (by rw [hB]; rfl)
      rw [hB] at hdi
      exact ih.2 di hdi
    · intro d e
      obtain ⟨di, hdi⟩ := digestOf_rule_input_ok e hba (by rw [hA]; rfl)
      rw [hA] at hdi
      exact ih.1 di hdi

theorem writeAttributes_total {env : Env} (hser : ∀ a, env.compactText a ≠ none) :
    ∀ (attrs : List Attribute) (h : Bytes), writeAttributes env attrs h ≠ none := by
  intro attrs
  induction attrs with
  | nil => intro h; simp [writeAttributes]
  | cons a rest ih =>
    intro h
    simp only [writeAttributes]
    cases hc : env.compactText a with
    | none => exact absurd hc (hser a)
    | some b => exact ih _

theorem inputDigests_no_crash {c : Option Target → Res Bytes} {targetMap : TargetMap}
    (hc : ∀ i, (targetMap i).isSome = true →
      c (targetMap i) ≠ .fatal ∧ c (targetMap i) ≠ .panic) :
    ∀ (inputs : List String) (h : Bytes),
      inputDigests c targetMap inputs h ≠ .fatal ∧
        inputDigests c targetMap inputs h ≠ .panic := by
  intro inputs
  induction inputs with
  | nil => intro h; simp [inputDigests]
  | cons i rest ih =>
    intro h
    cases hti : targetMap i with
    | none =>
      simp only [inputDigests, hti]
      exact ih h
    | some t =>
      have hci := hc i (by rw [hti]; rfl)
      rw [hti] at hci
      simp only [inputDigests, hti]
      cases hr : c (some t) with
      | ok d => exact ih _
      | fatal => exact absurd hr hci.1
      | panic => exact absurd hr hci.2
      | outOfFuel => simp

/-- When no serialization fails and every generated file has its generating rule in the map,
digesting a present target ends neither in `log.Fatalf` nor in a panic. -/
theorem digestOf_no_crash (env : Env) (targetMap : TargetMap)
    (hser : ∀ a, env.compactText a ≠ none)
    (hgen : ∀ l g, targetMap l = some (.generatedFile g) → targetMap g.generatingRule ≠ none) :
    ∀ fuel l, (targetMap l).isSome = true →
      digestOf env fuel (targetMap l) targetMap ≠ .fatal ∧
        digestOf env fuel (targetMap l) targetMap ≠ .panic := by
  intro fuel
  induction fuel with
  | zero => intro l _; simp [digestOf]
  | succ n ih =>
    intro l hl
    cases htl : targetMap l with
    | none => rw [htl] at hl; cases hl
    | some t =>
      cases t with
      | rule r =>
        simp only [digestOf]
        have hb : ruleBytesWith env (fun t => digestOf env n t targetMap) r targetMap ≠ .fatal ∧
            ruleBytesWith env (fun t => digestOf env n t targetMap) r targetMap ≠ .panic := by
          unfold ruleBytesWith
          cases hw : writeAttributes env (GetRuleAttributes r) [] with
          | none => exact absurd hw (writeAttributes_total hser _ _)
          | some h => exact inputDigests_no_crash (fun i hi => ih i hi) _ _
        cases hr : ruleBytesWith env (fun t => digestOf env n t targetMap) r targetMap with
        | ok b => simp [Res.map]
        | fatal => exact absurd hr hb.1
        | panic => exact absurd hr hb.2
        | outOfFuel => simp [Res.map]
      | sourceFile f => simp [digestOf]
      | generatedFile g =>
        simp only [digestOf]
        have hpres : (targetMap g.generatingRule).isSome = true := by
          cases hx : targetMap g.generatingRule with
          | none => exact absurd hx (hgen l g htl)
          | some _ => rfl
        have := ih g.generatingRule hpres
        cases hr : digestOf env n (targetMap g.generatingRule) targetMap with
        | ok b => simp [Res.map]
        | fatal => exact absurd hr this.1
        | panic => exact absurd hr this.2
        | outOfFuel => simp [Res.map]
      | packageGroup p => simp [digestOf]
      | other k => simp [digestOf]

/-- C17 (counterexample): in `crashCycleMap` the rules `//:A` and `//:B` list each other, both
are present, and `//:A` lists the generated file `//:out` first, whose generating rule is not
in the map. With a recursion budget of three the call for `//:A` is over: it has panicked in
the nil dereference, the recursion is not unbounded. -/
theorem C17_cycle_ends_in_panic :
    crashCycleMap "//:A" = some (.rule ⟨"//:A", "go_library", [], ["//:out", "//:B"]⟩) ∧
    crashCycleMap "//:B" = some (.rule ⟨"//:B", "go_library", [], ["//:A"]⟩) ∧
    CalculateHash demoEnv 3 "//:A" (crashCycleMap "//:A") crashCycleMap State.init = .panic ∧
    CalculateHash demoEnv 3 "//:A" (crashCycleMap "//:A") crashCycleMap State.init ≠
      .outOfFuel := by
  decide

/-- C17 (amended): when rule `A` lists the present rule `B` as an input and `B` lists `A`,
`CalculateHash` for `A` returns no digest under any recursion budget, and it has no outcome
that reports a cycle: the call uses up the budget, or the run has stopped before in
`log.Fatalf` or in a nil dereference. When no serialization fails and every generated file of
the map has its generating rule in the map, the call uses up every budget: the recursion is
unbounded. -/
theorem C17_cycle_no_digest (env : Env) (targetMap : TargetMap) (a b : String) (A B : Rule)
    (s : State) (hA : targetMap a = some (.rule A)) (hB : targetMap b = some (.rule B))
    (hab : b ∈ A.ruleInput) (hba : a ∈ B.ruleInput) (hs : Reachable env s) :
    (∀ fuel d s1, CalculateHash env fuel a (targetMap a) targetMap s ≠ .ok (d, s1)) ∧
    (∀ fuel,
      CalculateHash env fuel a (targetMap a) targetMap s = .outOfFuel ∨
      CalculateHash env fuel a (targetMap a) targetMap s = .fatal ∨
      CalculateHash env fuel a (targetMap a) targetMap s = .panic) ∧
    ((∀ x, env.compactText x ≠ none) →
      (∀ l g, targetMap l = some (.generatedFile g) → targetMap g.generatingRule ≠ none) →
      ∀ fuel, CalculateHash env fuel a (targetMap a) targetMap s = .outOfFuel) := by
  have hnot : ∀ fuel d s1, CalculateHash env fuel a (targetMap a) targetMap s ≠ .ok (d, s1) := by
    intro fuel d s1 e
    have := CalculateHash_ok_digestOf hs.wf e
    rw [hA] at this
    exact (digestOf_cycle_not_ok env targetMap a b A B hA hB hab hba fuel).1 d this
  refine ⟨hnot, ?_, ?_⟩
  · intro fuel
    cases hr : CalculateHash env fuel a (targetMap a) targetMap s with
    | ok p => exact absurd hr (hnot fuel p.1 p.2)
    | fatal => exact Or.inr (Or.inl rfl)
    | panic => exact Or.inr (Or.inr rfl)
    | outOfFuel => exact Or.inl rfl
  · intro hser hgen fuel
    have hv := CalculateHash_value env fuel a (targetMap a) targetMap s hs.wf
    have hnc := digestOf_no_crash env targetMap hser hgen fuel a (by rw [hA]; rfl)
    cases hr : CalculateHash env fuel a (targetMap a) targetMap s with
    | ok p => exact absurd hr (hnot fuel p.1 p.2)
    | fatal => rw [hr] at hv; exact absurd hv.symm hnc.1
    | panic => rw [hr] at hv; exact absurd hv.symm hnc.2
    | outOfFuel => rfl

/-- C17 at the scenario `cycleMap`: `//:A` and `//:B` list each other and nothing else. -/
theorem C17_cycle_no_digest_witness :
    cycleMap "//:A" = some (.rule ⟨"//:A", "go_library", [], ["//:B"]⟩) ∧
    cycleMap "//:B" = some (.rule ⟨"//:B", "go_library", [], ["//:A"]⟩) ∧
    Reachable demoEnv State.init ∧
    ∀ fuel, CalculateHash demoEnv fuel "//:A" (cycleMap "//:A") cycleMap State.init =
      .outOfFuel :=
  ⟨by decide, by decide, .init,
    (C17_cycle_no_digest demoEnv cycleMap "//:A" "//:B"
      ⟨"//:A", "go_library", [], ["//:B"]⟩ ⟨"//:B", "go_library", [], ["//:A"]⟩ State.init
      (by decide) (by decide) (by decide) (by decide) .init).2.2
      (fun x => by simp [demoEnv])
      (fun l g hg => by
        unfold cycleMap at hg
        split at hg
        · cases hg
        · split at hg <;> cases hg)⟩

end BazelQueryParser
